import Mathlib

/-!
Sparse matrix backed by a fixed-size chained hash table.

Shallow embedding of `src/cpp/sparse_matrix.cpp`.

Modelling conventions:
* `int` coordinates are integers; `hash` converts them to 64-bit `size_t`
  values by reduction modulo `2 ^ 64` and wraps every unsigned operation.
* `double` values are modelled by exact rationals, the test `value == 0.0`
  by equality with `0`; signed zeros and NaN are outside the model.
* A singly linked chain `Node* -> Node* -> ... -> nullptr` is the list of its
  nodes from head to tail; `nullptr` is the empty list and a pointer to a node
  of a chain is the suffix of the chain that starts at that node.
* The `size_t` counter `nonZeroElements` is a natural number (allocation of
  `2 ^ 64` nodes is not possible, so the counter never wraps upwards).
* Loops whose number of passes depends on the data take a fuel argument, one
  unit per pass; the theorems state how much fuel reaches the normal exit.
* Storage that a constructor finds uninitialised is a parameter `uninit`.
-/

namespace SparseMatrix

/-- Number of buckets of the hash table (`static const size_t TABLE_SIZE = 997`). -/
@[reducible] def TABLE_SIZE : Nat := 997

/-- Modulus of the unsigned 64-bit type `size_t`. -/
@[reducible] def SIZE_MOD : Nat := 2 ^ 64

/-- Node of a bucket chain; the `next` pointer is the tail of the list that holds the node. -/
structure Node where
  row : Int
  col : Int
  value : Rat
  deriving DecidableEq

/-- The matrix: the array `Node* buckets[TABLE_SIZE]` and the counter `nonZeroElements`. -/
structure Matrix where
  buckets : Fin TABLE_SIZE → List Node
  nonZeroElements : Nat

/-- `static_cast<size_t>(int)`: the value modulo `2 ^ 64`. -/
def toSizeT (x : Int) : Nat := (x % (SIZE_MOD : Int)).toNat

/-- The Cantor pairing computed by `hash` in wrapping `size_t` arithmetic, before `% TABLE_SIZE`. -/
def cantor (row col : Int) : Nat :=
  let k1 := toSizeT row
  let k2 := toSizeT col
  ((((k1 + k2) % SIZE_MOD) * ((k1 + k2 + 1) % SIZE_MOD)) % SIZE_MOD / 2 + k2) % SIZE_MOD

/-- `SparseMatrix::hash`: the bucket index of a coordinate pair. -/
def hash (row col : Int) : Fin TABLE_SIZE :=
  ⟨cantor row col % TABLE_SIZE, Nat.mod_lt _ (by decide)⟩

/-- The `while` loop of `findNode` over one chain: the position (counted from the head)
of the first node with the given coordinates, `none` when the loop reaches `nullptr`.
The predecessor reported through `prev` is the node at the previous position, and is
`nullptr` exactly when the position is `0`. -/
def findInChain (row col : Int) : List Node → Option Nat
  | [] => none
  | current :: next =>
    if current.row = row ∧ current.col = col then some 0
    else (findInChain row col next).map (· + 1)

/-- `SparseMatrix::findNode`: scan the chain of bucket `hash(row, col)`. -/
def findNode (m : Matrix) (row col : Int) : Option Nat :=
  findInChain row col (m.buckets (hash row col))

/-- Assignment `buckets[index] = chain`. -/
def setBucket (buckets : Fin TABLE_SIZE → List Node) (index : Fin TABLE_SIZE)
    (chain : List Node) : Fin TABLE_SIZE → List Node :=
  fun i => if i = index then chain else buckets i

/-- Assignment `node->value = value` on the node at position `i` of a chain. -/
def setValueAt (value : Rat) : List Node → Nat → List Node
  | [], _ => []
  | n :: rest, 0 => { n with value := value } :: rest
  | n :: rest, i + 1 => n :: setValueAt value rest i

/-- Assignment `prev->next = node->next` where `node` is at position `i + 1` of the chain
and `prev` at position `i`. -/
def unlinkAfter : List Node → Nat → List Node
  | [], _ => []
  | p :: rest, 0 => p :: rest.tail
  | p :: rest, i + 1 => p :: unlinkAfter rest i

/-- The default constructor: every bucket is `nullptr`, the counter is `0`. -/
def empty : Matrix :=
  { buckets := fun _ => [], nonZeroElements := 0 }

/-- `SparseMatrix::set`. -/
def set (m : Matrix) (row col : Int) (value : Rat) : Matrix :=
  let index := hash row col
  let chain := m.buckets index
  match findNode m row col with
  | some i =>
    if value = 0 then
      { buckets := setBucket m.buckets index
          (match i with
           | 0 => chain.tail
           | p + 1 => unlinkAfter chain p),
        nonZeroElements := m.nonZeroElements - 1 }
    else
      { m with buckets := setBucket m.buckets index (setValueAt value chain i) }
  | none =>
    if value = 0 then m
    else
      { buckets := setBucket m.buckets index ({ row := row, col := col, value := value } :: chain),
        nonZeroElements := m.nonZeroElements + 1 }

/-- `SparseMatrix::get`. -/
def get (m : Matrix) (row col : Int) : Rat :=
  match findNode m row col with
  | some i =>
    match (m.buckets (hash row col)).get? i with
    | some node => node.value
    | none => 0
  | none => 0

/-- `SparseMatrix::nonZeroCount`. -/
def nonZeroCount (m : Matrix) : Nat := m.nonZeroElements

/-- Result of `std::tie(row, col, value) = *it`. -/
structure Triple where
  row : Int
  col : Int
  value : Rat
  deriving DecidableEq

/-- The exception `std::out_of_range` thrown by `Iterator::operator*`. -/
inductive Error where
  | out_of_range
  deriving DecidableEq

/-- State of `SparseMatrix::Iterator` (the back pointer `matrix` is passed to the
operations that read it). `currentNode` is the chain suffix that starts at the node
pointed to; `[]` is `nullptr`. -/
structure Iterator where
  currentBucket : Nat
  currentNode : List Node
  deriving DecidableEq

/-- The `while` loop of `Iterator::findNextNode`, one pass per unit of fuel. -/
def findNextNodeLoop (m : Matrix) : Nat → Iterator → Iterator
  | 0, it => it
  | fuel + 1, it =>
    if it.currentBucket < TABLE_SIZE then
      if it.currentNode ≠ [] then it
      else
        let next := it.currentBucket + 1
        findNextNodeLoop m fuel
          { currentBucket := next,
            currentNode := if h : next < TABLE_SIZE then m.buckets ⟨next, h⟩ else it.currentNode }
    else it

/-- `Iterator::findNextNode`: every pass of the loop that does not return increments
`currentBucket`, so `TABLE_SIZE - currentBucket` passes reach the exit. -/
def findNextNode (m : Matrix) (it : Iterator) : Iterator :=
  findNextNodeLoop m (TABLE_SIZE - it.currentBucket) it

/-- `SparseMatrix::begin`, i.e. `Iterator(this, true)`. -/
def begin (m : Matrix) : Iterator :=
  findNextNode m { currentBucket := 0, currentNode := m.buckets ⟨0, by decide⟩ }

/-- `SparseMatrix::end`, i.e. `Iterator(this, false)`. -/
def end_ (_m : Matrix) : Iterator :=
  { currentBucket := TABLE_SIZE, currentNode := [] }

/-- `Iterator::operator*`. -/
def deref (it : Iterator) : Except Error Triple :=
  match it.currentNode with
  | [] => .error .out_of_range
  | node :: _ => .ok { row := node.row, col := node.col, value := node.value }

/-- `Iterator::operator++`. -/
def increment (m : Matrix) (it : Iterator) : Iterator :=
  if it.currentNode ≠ [] then findNextNode m { it with currentNode := it.currentNode.tail }
  else it

/-- `Iterator::operator==`. Equality of the two node pointers is equality of the chain
suffixes they head; on a chain with pairwise distinct coordinates two positions have the
same suffix only when they are the same position. -/
def Iterator.eq (a b : Iterator) : Bool :=
  decide (a.currentBucket = b.currentBucket ∧ a.currentNode = b.currentNode)

/-- The loop `for (auto it = start; it != end(); ++it) { s = body(s, *it); }`, one test of
the loop condition per unit of fuel. `none`: the fuel ran out; `some (.error e)`: the
dereference threw `e`; `some (.ok s)`: the loop exited with state `s`. -/
def forEach {σ : Type} (m : Matrix) (body : σ → Triple → σ) :
    Nat → Iterator → σ → Option (Except Error σ)
  | 0, _, _ => none
  | fuel + 1, it, s =>
    if Iterator.eq it (end_ m) then some (.ok s)
    else
      match deref it with
      | .error e => some (.error e)
      | .ok t => forEach m body fuel (increment m it) (body s t)

/-- The bucket indices `k, k + 1, ...` below `TABLE_SIZE`, at most `n` of them, ascending. -/
def bucketsFrom : Nat → Nat → List (Fin TABLE_SIZE)
  | 0, _ => []
  | n + 1, k => if h : k < TABLE_SIZE then ⟨k, h⟩ :: bucketsFrom n (k + 1) else []

/-- The bucket indices `0, 1, ..., TABLE_SIZE - 1` in ascending order. -/
def bucketIndices : List (Fin TABLE_SIZE) := bucketsFrom TABLE_SIZE 0

/-- All stored nodes: the chains of buckets `0, 1, ..., TABLE_SIZE - 1`, each from head to tail. -/
def entries (m : Matrix) : List Node :=
  bucketIndices.flatMap m.buckets

/-- Number of nodes stored over all chains. -/
def storedNodes (m : Matrix) : Nat := (entries m).length

/-- Number of loop-condition tests that the loop over a matrix needs: one per stored node
and the final one. -/
def loopFuel (m : Matrix) : Nat := storedNodes m + 1

/-- The triples produced by `for (auto it = begin(); it != end(); ++it) *it`. -/
def iterate (m : Matrix) (fuel : Nat) : Option (Except Error (List Triple)) :=
  forEach m (fun acc t => acc ++ [t]) fuel (begin m) []

/-- The loop of `SparseMatrix::transpose` started on the fresh matrix `result`. -/
def transposeLoop (m : Matrix) (fuel : Nat) : Option (Except Error Matrix) :=
  forEach m (fun result t => set result t.col t.row t.value) fuel (begin m) empty

/-- `SparseMatrix::transpose`. -/
def transpose (m : Matrix) : Matrix :=
  match transposeLoop m (loopFuel m) with
  | some (.ok result) => result
  | _ => empty

/-- The loop shared by the copy constructor and copy assignment, started on `self`. -/
def copyLoop (self other : Matrix) (fuel : Nat) : Option (Except Error Matrix) :=
  forEach other (fun self t => set self t.row t.col t.value) fuel (begin other) self

/-- A loop `for (size_t i = 0; i < TABLE_SIZE; ++i) s = body(s, i)`. -/
def forBuckets {σ : Type} (body : σ → Fin TABLE_SIZE → σ) (s : σ) : σ :=
  bucketIndices.foldl body s

/-- The default constructor run on storage with arbitrary initial bucket contents. -/
def construct (uninit : Fin TABLE_SIZE → List Node) : Matrix :=
  { buckets := forBuckets (fun b i => setBucket b i []) uninit, nonZeroElements := 0 }

/-- `SparseMatrix::cleanup`: every node is deleted, every bucket reset, the counter zeroed. -/
def cleanup (m : Matrix) : Matrix :=
  { buckets := forBuckets (fun b i => setBucket b i []) m.buckets, nonZeroElements := 0 }

/-- The copy constructor `SparseMatrix(const SparseMatrix& other)` on storage with
arbitrary initial bucket contents. -/
def copyCtor (uninit : Fin TABLE_SIZE → List Node) (other : Matrix) : Matrix :=
  match copyLoop (construct uninit) other (loopFuel other) with
  | some (.ok self) => self
  | _ => construct uninit

/-- Copy assignment `self = other` for two distinct objects (`this != &other`). -/
def copyAssign (self other : Matrix) : Matrix :=
  match copyLoop (cleanup self) other (loopFuel other) with
  | some (.ok result) => result
  | _ => cleanup self

/-- Copy assignment `self = self` (`this == &other`): nothing is done. -/
def copyAssignSelf (self : Matrix) : Matrix := self

/-- The loop of the move constructor and of move assignment,
`buckets[i] = other.buckets[i]; other.buckets[i] = nullptr`, on the pair of the two
bucket arrays. -/
def moveBuckets (self other : Fin TABLE_SIZE → List Node) :
    (Fin TABLE_SIZE → List Node) × (Fin TABLE_SIZE → List Node) :=
  forBuckets
    (fun (s : (Fin TABLE_SIZE → List Node) × (Fin TABLE_SIZE → List Node)) i =>
      (setBucket s.1 i (s.2 i), setBucket s.2 i []))
    (self, other)

/-- The move constructor `SparseMatrix(SparseMatrix&& other)` on storage with arbitrary
initial bucket contents: the pair of the constructed matrix and of `other` afterwards. -/
def moveCtor (uninit : Fin TABLE_SIZE → List Node) (other : Matrix) : Matrix × Matrix :=
  ({ buckets := (moveBuckets uninit other.buckets).1, nonZeroElements := other.nonZeroElements },
   { buckets := (moveBuckets uninit other.buckets).2, nonZeroElements := 0 })

/-- The matrix built by `main` before the call `matrix.set(1, 1, 0.0)`. -/
def demo : Matrix :=
  set (set (set (set (set empty 0 0 1) 1 1 2) 2 2 3) 5 10 4) 10 5 5

/-! ## Definitions used to state the properties -/

/-- Value found by the scan of one chain, `0` when no node has the coordinates. -/
def chainGet (row col : Int) (chain : List Node) : Rat :=
  match findInChain row col chain with
  | some i =>
    match chain.get? i with
    | some node => node.value
    | none => 0
  | none => 0

/-- Chain left in bucket `hash(row, col)` by `set(row, col, value)`. -/
def chainSet (row col : Int) (value : Rat) (chain : List Node) : List Node :=
  match findInChain row col chain with
  | some i =>
    if value = 0 then
      (match i with
       | 0 => chain.tail
       | p + 1 => unlinkAfter chain p)
    else setValueAt value chain i
  | none =>
    if value = 0 then chain else { row := row, col := col, value := value } :: chain

/-- Some node of the chain has the coordinates. -/
def HasCoord (row col : Int) (chain : List Node) : Prop :=
  ∃ n ∈ chain, n.row = row ∧ n.col = col

/-- Coordinates of a node. -/
def coords (n : Node) : Int × Int := (n.row, n.col)

/-- The representation invariant of the table. -/
structure WF (m : Matrix) : Prop where
  placed : ∀ i, ∀ n ∈ m.buckets i, hash n.row n.col = i
  nodup : ∀ i, ((m.buckets i).map coords).Nodup
  nonzero : ∀ i, ∀ n ∈ m.buckets i, n.value ≠ 0
  count : m.nonZeroElements = storedNodes m

/-- Tables reachable from the empty table by a finite sequence of `set` calls. -/
inductive Reachable : Matrix → Prop where
  | empty : Reachable empty
  | set {m : Matrix} (h : Reachable m) (row col : Int) (value : Rat) :
      Reachable (set m row col value)

/-- Triple read from a node by `operator*`. -/
def Node.toTriple (n : Node) : Triple :=
  { row := n.row, col := n.col, value := n.value }

/-- Chains of the buckets `k, k + 1, ..., TABLE_SIZE - 1`, each from head to tail. -/
def chainsFrom (m : Matrix) (k : Nat) : List Node :=
  (bucketsFrom (TABLE_SIZE - k) k).flatMap m.buckets

/-- Nodes that an iterator has still to visit, the current one first. -/
def remaining (m : Matrix) (it : Iterator) : List Node :=
  it.currentNode ++ chainsFrom m (it.currentBucket + 1)

/-- States of an iterator obtained from `begin()` by increments: positioned on a node of
a bucket, or the terminal state. -/
def Normal (it : Iterator) : Prop :=
  (it.currentBucket < TABLE_SIZE ∧ it.currentNode ≠ []) ∨
  (it.currentBucket = TABLE_SIZE ∧ it.currentNode = [])

/-- The table obtained from `t` by calling `set` for every node of the list in turn, at
the node's coordinates mapped by `k`. -/
def insertAll (k : Int × Int → Int × Int) (t : Matrix) (l : List Node) : Matrix :=
  l.foldl (fun res n => set res (k (coords n)).1 (k (coords n)).2 n.value) t

/-- The iterator obtained from `begin()` by `n` applications of `operator++`. -/
def advance (m : Matrix) : Nat → Iterator
  | 0 => begin m
  | n + 1 => increment m (advance m n)

/-- The iteration order in the words of the specification: for bucket index
`0, 1, ..., TABLE_SIZE - 1` in ascending order, the triples of the bucket's chain read
from head to tail, concatenated. -/
def bucketOrder (m : Matrix) : List Triple :=
  (List.finRange TABLE_SIZE).flatMap (fun i => (m.buckets i).map Node.toTriple)

/-- The combined key in the words of the specification,
`k = (row + col) * (row + col + 1) / 2 + col`, evaluated over the integers. -/
def pairingKey (row col : Int) : Int :=
  (row + col) * (row + col + 1) / 2 + col

/-- Every node stored in the chain of bucket `i` hashes to `i`, and is therefore found by
the scan of `findNode` at its own coordinates. -/
def Placed (t : Matrix) : Prop :=
  ∀ i, ∀ n ∈ t.buckets i, hash n.row n.col = i ∧ findNode t n.row n.col ≠ none

/-! ## Lemmas on chains -/

theorem get_eq_chainGet (m : Matrix) (row col : Int) :
    get m row col = chainGet row col (m.buckets (hash row col)) := rfl

theorem findInChain_eq_none {row col : Int} {chain : List Node} :
    findInChain row col chain = none ↔ ¬ HasCoord row col chain := by
  induction chain with
  | nil => simp [findInChain, HasCoord]
  | cons n rest ih =>
    by_cases h : n.row = row ∧ n.col = col
    · simp only [findInChain, h, and_self, if_true, HasCoord]
      constructor
      · intro h'; cases h'
      · intro h'; exact absurd ⟨n, List.mem_cons_self _ _, h⟩ h'
    · simp only [findInChain, h, if_false, Option.map_eq_none', ih, HasCoord]
      constructor
      · rintro h1 ⟨x, hx, hc⟩
        rcases List.mem_cons.1 hx with rfl | hx
        · exact h hc
        · exact h1 ⟨x, hx, hc⟩
      · rintro h1 ⟨x, hx, hc⟩
        exact h1 ⟨x, List.mem_cons_of_mem _ hx, hc⟩

theorem chainGet_nil (row col : Int) : chainGet row col [] = 0 := rfl

theorem chainGet_cons (row col : Int) (n : Node) (rest : List Node) :
    chainGet row col (n :: rest) =
      if n.row = row ∧ n.col = col then n.value else chainGet row col rest := by
  by_cases h : n.row = row ∧ n.col = col
  · simp [chainGet, findInChain, h]
  · simp only [chainGet, findInChain, h, if_false]
    cases findInChain row col rest with
    | none => rfl
    | some i => simp [List.get?]

theorem chainSet_nil (row col : Int) (value : Rat) :
    chainSet row col value [] =
      if value = 0 then [] else [{ row := row, col := col, value := value }] := rfl

theorem chainSet_cons_hit (row col : Int) (value : Rat) (n : Node) (rest : List Node)
    (h : n.row = row ∧ n.col = col) :
    chainSet row col value (n :: rest) =
      if value = 0 then rest else { n with value := value } :: rest := by
  simp [chainSet, findInChain, h, setValueAt]

theorem chainSet_cons_miss_present (row col : Int) (value : Rat) (n : Node) (rest : List Node)
    (h : ¬ (n.row = row ∧ n.col = col)) (hp : HasCoord row col rest) :
    chainSet row col value (n :: rest) = n :: chainSet row col value rest := by
  have hne : findInChain row col rest ≠ none := fun h' => findInChain_eq_none.1 h' hp
  obtain ⟨i, hi⟩ := Option.ne_none_iff_exists'.1 hne
  simp only [chainSet, findInChain, h, if_false, hi, Option.map_some']
  by_cases hv : value = 0
  · simp only [hv, if_true]
    cases i with
    | zero => simp [unlinkAfter]
    | succ p => simp [unlinkAfter]
  · simp only [hv, if_false, setValueAt]

theorem chainSet_absent (row col : Int) (value : Rat) (chain : List Node)
    (hp : ¬ HasCoord row col chain) :
    chainSet row col value chain =
      if value = 0 then chain else { row := row, col := col, value := value } :: chain := by
  simp [chainSet, findInChain_eq_none.2 hp]

theorem hasCoord_iff_mem {row col : Int} {chain : List Node} :
    HasCoord row col chain ↔ (row, col) ∈ chain.map coords := by
  simp only [HasCoord, List.mem_map, coords, Prod.mk.injEq]

theorem hasCoord_cons {row col : Int} {n : Node} {rest : List Node} :
    HasCoord row col (n :: rest) ↔ (n.row = row ∧ n.col = col) ∨ HasCoord row col rest := by
  simp [HasCoord]

theorem chainGet_of_absent {row col : Int} {chain : List Node}
    (h : ¬ HasCoord row col chain) : chainGet row col chain = 0 := by
  simp [chainGet, findInChain_eq_none.2 h]

theorem chainGet_of_mem {chain : List Node} (hnd : (chain.map coords).Nodup)
    {n : Node} (hn : n ∈ chain) : chainGet n.row n.col chain = n.value := by
  induction chain with
  | nil => cases hn
  | cons x rest ih =>
    rw [chainGet_cons]
    rw [List.map_cons, List.nodup_cons] at hnd
    rcases List.mem_cons.1 hn with rfl | hn'
    · simp
    · have hx : ¬ (x.row = n.row ∧ x.col = n.col) := by
        intro hx
        apply hnd.1
        have : coords x = coords n := by simp [coords, hx.1, hx.2]
        rw [this]
        exact List.mem_map_of_mem _ hn'
      rw [if_neg hx]
      exact ih hnd.2 hn'

/-- The coordinates held by the chain that `set` leaves behind. -/
theorem map_coords_chainSet (row col : Int) (value : Rat) (chain : List Node) :
    (chainSet row col value chain).map coords =
      if value = 0 then (chain.map coords).erase (row, col)
      else if (row, col) ∈ chain.map coords then chain.map coords
      else (row, col) :: chain.map coords := by
  induction chain with
  | nil =>
    by_cases hv : value = 0 <;> simp [chainSet_nil, hv, HasCoord, coords]
  | cons n rest ih =>
    by_cases h : n.row = row ∧ n.col = col
    · rw [chainSet_cons_hit _ _ _ _ _ h]
      have hc : coords n = (row, col) := by simp [coords, h.1, h.2]
      have hp : (row, col) ∈ (n :: rest).map coords :=
        hasCoord_iff_mem.1 (hasCoord_cons.2 (Or.inl h))
      by_cases hv : value = 0
      · simp [hv, hc]
      · rw [if_neg hv, if_neg hv, if_pos hp]
        simp [coords]
    · have hc : ¬ (coords n = (row, col)) := by
        simpa [coords] using h
      by_cases hp : HasCoord row col rest
      · rw [chainSet_cons_miss_present _ _ _ _ _ h hp, List.map_cons, ih]
        have hp1 : (row, col) ∈ rest.map coords := hasCoord_iff_mem.1 hp
        have hp2 : (row, col) ∈ (n :: rest).map coords :=
          hasCoord_iff_mem.1 (hasCoord_cons.2 (Or.inr hp))
        by_cases hv : value = 0
        · simp only [hv, if_true, List.map_cons]
          rw [List.erase_cons_tail]
          simpa using hc
        · rw [if_neg hv, if_pos hp1, if_neg hv, if_pos hp2, List.map_cons]
      · have hp2 : ¬ HasCoord row col (n :: rest) := by
          rw [hasCoord_cons]; tauto
        rw [chainSet_absent _ _ _ _ hp2]
        have hp3 : (row, col) ∉ (n :: rest).map coords :=
          fun hm => hp2 (hasCoord_iff_mem.2 hm)
        by_cases hv : value = 0
        · simp only [hv, if_true]
          rw [List.erase_of_not_mem hp3]
        · rw [if_neg hv, if_neg hv, if_neg hp3]
          simp [coords]

theorem mem_chainSet {row col : Int} {value : Rat} {chain : List Node} {n : Node}
    (hn : n ∈ chainSet row col value chain) :
    (n = { row := row, col := col, value := value } ∧ value ≠ 0) ∨ n ∈ chain := by
  induction chain with
  | nil =>
    rw [chainSet_nil] at hn
    by_cases hv : value = 0
    · simp [hv] at hn
    · simp only [hv, if_false, List.mem_singleton] at hn
      exact Or.inl ⟨hn, hv⟩
  | cons x rest ih =>
    by_cases h : x.row = row ∧ x.col = col
    · rw [chainSet_cons_hit _ _ _ _ _ h] at hn
      by_cases hv : value = 0
      · simp only [hv, if_true] at hn
        exact Or.inr (List.mem_cons_of_mem _ hn)
      · simp only [hv, if_false] at hn
        rcases List.mem_cons.1 hn with rfl | hn
        · left
          refine ⟨?_, hv⟩
          simp [h.1, h.2]
        · exact Or.inr (List.mem_cons_of_mem _ hn)
    · by_cases hp : HasCoord row col rest
      · rw [chainSet_cons_miss_present _ _ _ _ _ h hp, List.mem_cons] at hn
        rcases hn with rfl | hn
        · exact Or.inr (List.mem_cons_self _ _)
        · rcases ih hn with h1 | h1
          · exact Or.inl h1
          · exact Or.inr (List.mem_cons_of_mem _ h1)
      · have hp2 : ¬ HasCoord row col (x :: rest) := by
          rw [hasCoord_cons]; tauto
        rw [chainSet_absent _ _ _ _ hp2] at hn
        by_cases hv : value = 0
        · simp only [hv, if_true] at hn
          exact Or.inr hn
        · simp only [hv, if_false] at hn
          rcases List.mem_cons.1 hn with rfl | hn
          · exact Or.inl ⟨rfl, hv⟩
          · exact Or.inr hn

theorem chainGet_chainSet_other {row col row2 col2 : Int} (value : Rat) (chain : List Node)
    (hne : ¬ (row = row2 ∧ col = col2)) :
    chainGet row2 col2 (chainSet row col value chain) = chainGet row2 col2 chain := by
  induction chain with
  | nil =>
    rw [chainSet_nil]
    by_cases hv : value = 0
    · simp [hv]
    · simp only [hv, if_false, chainGet_cons, chainGet_nil]
      rw [if_neg hne]
  | cons x rest ih =>
    by_cases h : x.row = row ∧ x.col = col
    · have hx : ¬ (x.row = row2 ∧ x.col = col2) := by
        rw [h.1, h.2]; exact hne
      rw [chainSet_cons_hit _ _ _ _ _ h]
      by_cases hv : value = 0
      · simp only [hv, if_true]
        rw [chainGet_cons, if_neg hx]
      · simp only [hv, if_false]
        rw [chainGet_cons, chainGet_cons, if_neg hx, if_neg hx]
    · by_cases hp : HasCoord row col rest
      · rw [chainSet_cons_miss_present _ _ _ _ _ h hp, chainGet_cons, chainGet_cons, ih]
      · have hp2 : ¬ HasCoord row col (x :: rest) := by
          rw [hasCoord_cons]; tauto
        rw [chainSet_absent _ _ _ _ hp2]
        by_cases hv : value = 0
        · simp [hv]
        · simp only [hv, if_false]
          rw [chainGet_cons, if_neg hne]

theorem chainGet_chainSet_same (row col : Int) (value : Rat) {chain : List Node}
    (hnd : (chain.map coords).Nodup) :
    chainGet row col (chainSet row col value chain) = value := by
  induction chain with
  | nil =>
    rw [chainSet_nil]
    by_cases hv : value = 0
    · simp [hv, chainGet_nil]
    · simp [hv, chainGet_cons]
  | cons x rest ih =>
    rw [List.map_cons, List.nodup_cons] at hnd
    by_cases h : x.row = row ∧ x.col = col
    · rw [chainSet_cons_hit _ _ _ _ _ h]
      by_cases hv : value = 0
      · simp only [hv, if_true]
        apply chainGet_of_absent
        intro hp
        apply hnd.1
        have : coords x = (row, col) := by simp [coords, h.1, h.2]
        rw [this]
        exact hasCoord_iff_mem.1 hp
      · simp only [hv, if_false]
        rw [chainGet_cons, if_pos h]
    · by_cases hp : HasCoord row col rest
      · rw [chainSet_cons_miss_present _ _ _ _ _ h hp, chainGet_cons, if_neg h, ih hnd.2]
      · have hp2 : ¬ HasCoord row col (x :: rest) := by
          rw [hasCoord_cons]; tauto
        rw [chainSet_absent _ _ _ _ hp2]
        by_cases hv : value = 0
        · simp only [hv, if_true]
          exact chainGet_of_absent hp2
        · simp only [hv, if_false]
          rw [chainGet_cons]
          simp

/-! ## Bucket indices -/

theorem bucketsFrom_succ (n : Nat) {k : Nat} (h : k < TABLE_SIZE) :
    bucketsFrom (n + 1) k = ⟨k, h⟩ :: bucketsFrom n (k + 1) := by
  rw [bucketsFrom, dif_pos h]

theorem bucketsFrom_eq_drop (n k : Nat) (h : k + n = TABLE_SIZE) :
    bucketsFrom n k = (List.finRange TABLE_SIZE).drop k := by
  induction n generalizing k with
  | zero =>
    rw [List.drop_of_length_le (by rw [List.length_finRange]; omega)]
    rfl
  | succ n ih =>
    have hk : k < TABLE_SIZE := by omega
    rw [List.drop_eq_getElem_cons (by rw [List.length_finRange]; exact hk),
      List.getElem_finRange, ← ih (k + 1) (by omega), bucketsFrom_succ n hk]
    rfl

theorem bucketIndices_eq_finRange : bucketIndices = List.finRange TABLE_SIZE := by
  unfold bucketIndices
  rw [bucketsFrom_eq_drop TABLE_SIZE 0 (Nat.zero_add _), List.drop_zero]

theorem mem_bucketIndices (i : Fin TABLE_SIZE) : i ∈ bucketIndices := by
  rw [bucketIndices_eq_finRange]
  exact List.mem_finRange i

theorem nodup_bucketIndices : bucketIndices.Nodup := by
  rw [bucketIndices_eq_finRange]
  exact List.nodup_finRange _

theorem entries_eq_flatMap (m : Matrix) :
    entries m = (List.finRange TABLE_SIZE).flatMap m.buckets := by
  unfold entries
  rw [bucketIndices_eq_finRange]

/-! ## The table invariant -/

theorem set_buckets (m : Matrix) (row col : Int) (value : Rat) :
    (set m row col value).buckets =
      setBucket m.buckets (hash row col) (chainSet row col value (m.buckets (hash row col))) := by
  unfold set chainSet findNode
  cases findInChain row col (m.buckets (hash row col)) with
  | some i =>
    by_cases hv : value = 0
    · simp only [hv, if_true]
    · simp only [hv, if_false]
  | none =>
    by_cases hv : value = 0
    · simp only [hv, if_true]
      funext j
      by_cases hj : j = hash row col
      · simp [setBucket, hj]
      · simp [setBucket, hj]
    · simp only [hv, if_false]

theorem set_nonZeroElements (m : Matrix) (row col : Int) (value : Rat) :
    (set m row col value).nonZeroElements =
      if (row, col) ∈ (m.buckets (hash row col)).map coords then
        (if value = 0 then m.nonZeroElements - 1 else m.nonZeroElements)
      else (if value = 0 then m.nonZeroElements else m.nonZeroElements + 1) := by
  unfold set findNode
  by_cases hp : HasCoord row col (m.buckets (hash row col))
  · have hne : findInChain row col (m.buckets (hash row col)) ≠ none :=
      fun h' => findInChain_eq_none.1 h' hp
    obtain ⟨i, hi⟩ := Option.ne_none_iff_exists'.1 hne
    rw [if_pos (hasCoord_iff_mem.1 hp)]
    simp only [hi]
    by_cases hv : value = 0
    · simp only [hv, if_true]
    · simp only [hv, if_false]
  · rw [if_neg (fun h' => hp (hasCoord_iff_mem.2 h'))]
    simp only [findInChain_eq_none.2 hp]
    by_cases hv : value = 0
    · simp only [hv, if_true]
    · simp only [hv, if_false]

theorem setBucket_same (b : Fin TABLE_SIZE → List Node) (i : Fin TABLE_SIZE) (c : List Node) :
    setBucket b i c i = c := by
  simp [setBucket]

theorem setBucket_other (b : Fin TABLE_SIZE → List Node) {i j : Fin TABLE_SIZE} (c : List Node)
    (h : j ≠ i) : setBucket b i c j = b j := by
  simp [setBucket, h]

theorem flatMap_setBucket_of_not_mem (b : Fin TABLE_SIZE → List Node) (i : Fin TABLE_SIZE)
    (c : List Node) (l : List (Fin TABLE_SIZE)) (hi : i ∉ l) :
    l.flatMap (setBucket b i c) = l.flatMap b := by
  induction l with
  | nil => rfl
  | cons j rest ih =>
    rw [List.mem_cons, not_or] at hi
    rw [List.flatMap_cons, List.flatMap_cons, ih hi.2,
      setBucket_other b c (fun h => hi.1 h.symm)]

theorem length_flatMap_setBucket (b : Fin TABLE_SIZE → List Node) (i : Fin TABLE_SIZE)
    (c : List Node) (l : List (Fin TABLE_SIZE)) (hnd : l.Nodup) (hi : i ∈ l) :
    (l.flatMap (setBucket b i c)).length + (b i).length = (l.flatMap b).length + c.length := by
  induction l with
  | nil => cases hi
  | cons j rest ih =>
    rw [List.nodup_cons] at hnd
    rw [List.flatMap_cons, List.flatMap_cons, List.length_append, List.length_append]
    rcases List.mem_cons.1 hi with rfl | hi'
    · rw [flatMap_setBucket_of_not_mem b i c rest hnd.1, setBucket_same]
      omega
    · have hji : j ≠ i := fun h => hnd.1 (h ▸ hi')
      rw [setBucket_other b c hji]
      have := ih hnd.2 hi'
      omega

theorem storedNodes_set (m : Matrix) (row col : Int) (value : Rat) :
    storedNodes (set m row col value) + (m.buckets (hash row col)).length =
      storedNodes m + (chainSet row col value (m.buckets (hash row col))).length := by
  unfold storedNodes entries
  rw [set_buckets]
  exact length_flatMap_setBucket _ _ _ _ nodup_bucketIndices (mem_bucketIndices _)

theorem bucket_length_le_storedNodes (m : Matrix) (i : Fin TABLE_SIZE) :
    (m.buckets i).length ≤ storedNodes m := by
  have h := length_flatMap_setBucket m.buckets i [] bucketIndices
    nodup_bucketIndices (mem_bucketIndices _)
  unfold storedNodes entries
  simp only [List.length_nil] at h
  omega

theorem length_chainSet (row col : Int) (value : Rat) (chain : List Node) :
    (chainSet row col value chain).length =
      if (row, col) ∈ chain.map coords then
        (if value = 0 then chain.length - 1 else chain.length)
      else (if value = 0 then chain.length else chain.length + 1) := by
  have h := congrArg List.length (map_coords_chainSet row col value chain)
  rw [List.length_map] at h
  rw [h]
  by_cases hp : (row, col) ∈ chain.map coords
  · by_cases hv : value = 0
    · simp only [hv, hp, if_true]
      rw [List.length_erase_of_mem hp, List.length_map]
    · simp only [hv, hp, if_true, if_false, List.length_map]
  · by_cases hv : value = 0
    · simp only [hv, hp, if_true, if_false]
      rw [List.erase_of_not_mem hp, List.length_map]
    · simp only [hv, hp, if_false, List.length_cons, List.length_map]

theorem flatMap_const_nil (l : List (Fin TABLE_SIZE)) :
    l.flatMap (fun _ => ([] : List Node)) = [] := by
  induction l with
  | nil => rfl
  | cons j rest ih => rw [List.flatMap_cons, ih]; rfl

theorem entries_empty : entries empty = [] := flatMap_const_nil _

theorem storedNodes_empty : storedNodes empty = 0 := by
  unfold storedNodes
  rw [entries_empty]
  rfl

theorem wf_empty : WF empty where
  placed := by intro i n hn; cases hn
  nodup := by intro i; exact List.nodup_nil
  nonzero := by intro i n hn; cases hn
  count := by rw [storedNodes_empty]; rfl

theorem wf_set {m : Matrix} (h : WF m) (row col : Int) (value : Rat) :
    WF (set m row col value) where
  placed := by
    intro i n hn
    rw [set_buckets] at hn
    by_cases hi : i = hash row col
    · subst hi
      rw [setBucket_same] at hn
      rcases mem_chainSet hn with ⟨rfl, _⟩ | hn'
      · rfl
      · exact h.placed _ n hn'
    · rw [setBucket_other _ _ hi] at hn
      exact h.placed i n hn
  nodup := by
    intro i
    rw [set_buckets]
    by_cases hi : i = hash row col
    · subst hi
      rw [setBucket_same, map_coords_chainSet]
      by_cases hv : value = 0
      · rw [if_pos hv]
        exact (h.nodup _).erase _
      · rw [if_neg hv]
        by_cases hp : (row, col) ∈ (m.buckets (hash row col)).map coords
        · rw [if_pos hp]; exact h.nodup _
        · rw [if_neg hp]; exact List.nodup_cons.2 ⟨hp, h.nodup _⟩
    · rw [setBucket_other _ _ hi]
      exact h.nodup i
  nonzero := by
    intro i n hn
    rw [set_buckets] at hn
    by_cases hi : i = hash row col
    · subst hi
      rw [setBucket_same] at hn
      rcases mem_chainSet hn with ⟨rfl, hv⟩ | hn'
      · exact hv
      · exact h.nonzero _ n hn'
    · rw [setBucket_other _ _ hi] at hn
      exact h.nonzero i n hn
  count := by
    have h1 := storedNodes_set m row col value
    have h2 := length_chainSet row col value (m.buckets (hash row col))
    have h3 := bucket_length_le_storedNodes m (hash row col)
    have h4 := h.count
    rw [set_nonZeroElements]
    by_cases hp : (row, col) ∈ (m.buckets (hash row col)).map coords
    · have hpos : 0 < (m.buckets (hash row col)).length := by
        have := List.length_pos_of_mem hp
        rwa [List.length_map] at this
      rw [if_pos hp] at h2 ⊢
      by_cases hv : value = 0
      · rw [if_pos hv] at h2 ⊢; omega
      · rw [if_neg hv] at h2 ⊢; omega
    · rw [if_neg hp] at h2 ⊢
      by_cases hv : value = 0
      · rw [if_pos hv] at h2 ⊢; omega
      · rw [if_neg hv] at h2 ⊢; omega

theorem Reachable.wf {m : Matrix} (h : Reachable m) : WF m := by
  induction h with
  | empty => exact wf_empty
  | set _ row col value ih => exact wf_set ih row col value

theorem reachable_demo : Reachable demo :=
  .set (.set (.set (.set (.set .empty 0 0 1) 1 1 2) 2 2 3) 5 10 4) 10 5 5

/-! ## Stored entries and `get` -/

theorem mem_entries {m : Matrix} {n : Node} : n ∈ entries m ↔ ∃ i, n ∈ m.buckets i := by
  unfold entries
  rw [List.mem_flatMap]
  constructor
  · rintro ⟨i, _, hn⟩; exact ⟨i, hn⟩
  · rintro ⟨i, hn⟩; exact ⟨i, mem_bucketIndices i, hn⟩

theorem get_set_same {m : Matrix} (h : WF m) (row col : Int) (value : Rat) :
    get (set m row col value) row col = value := by
  rw [get_eq_chainGet, set_buckets, setBucket_same]
  exact chainGet_chainSet_same row col value (h.nodup _)

theorem get_set_other (m : Matrix) {row col row2 col2 : Int} (value : Rat)
    (hne : ¬ (row = row2 ∧ col = col2)) :
    get (set m row col value) row2 col2 = get m row2 col2 := by
  rw [get_eq_chainGet, get_eq_chainGet, set_buckets]
  by_cases hi : hash row2 col2 = hash row col
  · rw [hi, setBucket_same]
    exact chainGet_chainSet_other value _ hne
  · rw [setBucket_other _ _ hi]

theorem get_of_mem_entries {m : Matrix} (h : WF m) {n : Node} (hn : n ∈ entries m) :
    get m n.row n.col = n.value := by
  obtain ⟨i, hi⟩ := mem_entries.1 hn
  have hp := h.placed i n hi
  rw [get_eq_chainGet, hp]
  exact chainGet_of_mem (h.nodup i) hi

theorem get_ne_zero_iff {m : Matrix} (h : WF m) (row col : Int) :
    get m row col ≠ 0 ↔ ∃ n ∈ entries m, n.row = row ∧ n.col = col := by
  constructor
  · intro hg
    by_contra hno
    apply hg
    rw [get_eq_chainGet]
    apply chainGet_of_absent
    rintro ⟨n, hn, hc⟩
    exact hno ⟨n, mem_entries.2 ⟨_, hn⟩, hc⟩
  · rintro ⟨n, hn, hr, hc⟩
    have hv := get_of_mem_entries h hn
    rw [hr, hc] at hv
    rw [hv]
    obtain ⟨i, hi⟩ := mem_entries.1 hn
    exact h.nonzero i n hi

theorem nodup_coords_entries {m : Matrix} (h : WF m) : ((entries m).map coords).Nodup := by
  unfold entries
  rw [List.map_flatMap, List.nodup_flatMap]
  refine ⟨fun i _ => h.nodup i, ?_⟩
  refine nodup_bucketIndices.imp ?_
  intro a b hab
  show List.Disjoint _ _
  intro p hpa hpb
  obtain ⟨x, hx, hxp⟩ := List.mem_map.1 hpa
  obtain ⟨y, hy, hyp⟩ := List.mem_map.1 hpb
  have hxa := h.placed a x hx
  have hyb := h.placed b y hy
  have hxy : coords x = coords y := hxp.trans hyp.symm
  simp only [coords, Prod.mk.injEq] at hxy
  rw [hxy.1, hxy.2] at hxa
  exact hab (hxa.symm.trans hyb)

theorem filter_coords_length_le_one {l : List Node} (hnd : (l.map coords).Nodup)
    (row col : Int) :
    (l.filter (fun n => decide (n.row = row ∧ n.col = col))).length ≤ 1 := by
  induction l with
  | nil => simp
  | cons x rest ih =>
    rw [List.map_cons, List.nodup_cons] at hnd
    by_cases hx : x.row = row ∧ x.col = col
    · have hrest : rest.filter (fun n => decide (n.row = row ∧ n.col = col)) = [] := by
        rw [List.filter_eq_nil_iff]
        intro y hy hdec
        have hyc : y.row = row ∧ y.col = col := of_decide_eq_true hdec
        apply hnd.1
        have : coords x = coords y := by simp [coords, hx.1, hx.2, hyc.1, hyc.2]
        rw [this]
        exact List.mem_map_of_mem _ hy
      rw [List.filter_cons_of_pos (by simpa using hx), hrest]
      simp
    · rw [List.filter_cons_of_neg (by simpa using hx)]
      exact ih hnd.2

theorem length_entries_eq_sum (m : Matrix) :
    (entries m).length = ∑ i : Fin TABLE_SIZE, (m.buckets i).length := by
  rw [entries_eq_flatMap, List.length_flatMap, Fin.sum_univ_def]
  rfl

theorem demo_nonZeroCount : nonZeroCount demo = 5 ∧ nonZeroCount (set demo 1 1 0) = 4 := by
  decide

/-! ## Contract of `set`, `get` and `nonZeroCount` -/

/-- C1: on every table reachable from the empty table by `set` calls, `get` at the
coordinates just written by `set` returns the value written, whether that value is zero
or not and whatever the cell held before. -/
theorem get_set_read_your_write (m : Matrix) (h : Reachable m) (row col : Int) (value : Rat) :
    get (set m row col value) row col = value :=
  get_set_same h.wf row col value

theorem get_set_read_your_write_witness :
    Reachable demo ∧ get (set demo 1 1 0) 1 1 = 0 :=
  ⟨reachable_demo, get_set_read_your_write demo reachable_demo 1 1 0⟩

/-- C2: on every reachable table, `nonZeroCount` is the number of nodes stored over the
997 chains, and that is the number of coordinate pairs at which `get` is not zero. -/
theorem nonZeroCount_invariant (m : Matrix) (h : Reachable m) :
    nonZeroCount m = ∑ i : Fin TABLE_SIZE, (m.buckets i).length ∧
    ∃ s : Finset (Int × Int),
      (∀ row col, (row, col) ∈ s ↔ get m row col ≠ 0) ∧ s.card = nonZeroCount m := by
  have hw := h.wf
  refine ⟨?_, ((entries m).map coords).toFinset, ?_, ?_⟩
  · rw [← length_entries_eq_sum]
    exact hw.count
  · intro row col
    rw [List.mem_toFinset, get_ne_zero_iff hw, ← hasCoord_iff_mem]
    rfl
  · rw [List.toFinset_card_of_nodup (nodup_coords_entries hw), List.length_map]
    exact hw.count.symm

theorem nonZeroCount_invariant_witness :
    Reachable demo ∧
    (nonZeroCount demo = ∑ i : Fin TABLE_SIZE, (demo.buckets i).length ∧
     ∃ s : Finset (Int × Int),
      (∀ row col, (row, col) ∈ s ↔ get demo row col ≠ 0) ∧ s.card = nonZeroCount demo) :=
  ⟨reachable_demo, nonZeroCount_invariant demo reachable_demo⟩

/-- C3: on every reachable table at most one stored node has a given coordinate pair, and
after `set(row, col, v1)` followed by `set(row, col, v2)` with `v2` non-zero (in
particular for `v1` non-zero and different from `v2`) the nodes with coordinates
`(row, col)` are exactly one node, of value `v2`. -/
theorem entry_unique (m : Matrix) (h : Reachable m) (row col : Int) :
    ((entries m).filter (fun n => decide (n.row = row ∧ n.col = col))).length ≤ 1 ∧
    ∀ v1 v2 : Rat, v2 ≠ 0 →
      (entries (set (set m row col v1) row col v2)).filter
          (fun n => decide (n.row = row ∧ n.col = col)) =
        [{ row := row, col := col, value := v2 }] := by
  refine ⟨filter_coords_length_le_one (nodup_coords_entries h.wf) row col, ?_⟩
  intro v1 v2 hv2
  have hw : WF (set (set m row col v1) row col v2) := wf_set (wf_set h.wf _ _ _) _ _ _
  have hget : get (set (set m row col v1) row col v2) row col = v2 :=
    get_set_same (wf_set h.wf _ _ _) _ _ _
  have hlen := filter_coords_length_le_one (nodup_coords_entries hw) row col
  have hall : ∀ x ∈ (entries (set (set m row col v1) row col v2)).filter
      (fun n => decide (n.row = row ∧ n.col = col)),
      x = { row := row, col := col, value := v2 } := by
    intro x hx
    rw [List.mem_filter] at hx
    have hc : x.row = row ∧ x.col = col := of_decide_eq_true hx.2
    have hv := get_of_mem_entries hw hx.1
    rw [hc.1, hc.2, hget] at hv
    cases x
    simp only [Node.mk.injEq]
    exact ⟨hc.1, hc.2, hv.symm⟩
  have hex : ∃ n ∈ entries (set (set m row col v1) row col v2), n.row = row ∧ n.col = col :=
    (get_ne_zero_iff hw row col).1 (by rw [hget]; exact hv2)
  obtain ⟨n, hn, hc⟩ := hex
  have hmem : n ∈ (entries (set (set m row col v1) row col v2)).filter
      (fun n => decide (n.row = row ∧ n.col = col)) :=
    List.mem_filter.2 ⟨hn, decide_eq_true hc⟩
  generalize (entries (set (set m row col v1) row col v2)).filter
      (fun n => decide (n.row = row ∧ n.col = col)) = l at hlen hall hmem
  match l, hlen, hall, hmem with
  | [x], _, hall, _ => rw [hall x (List.mem_singleton.2 rfl)]
  | [], _, _, hmem => cases hmem
  | _ :: _ :: _, hlen, _, _ => simp at hlen

theorem entry_unique_witness :
    Reachable demo ∧
    (((entries demo).filter (fun n => decide (n.row = 1 ∧ n.col = 1))).length ≤ 1 ∧
     ∀ v1 v2 : Rat, v2 ≠ 0 →
      (entries (set (set demo 1 1 v1) 1 1 v2)).filter
          (fun n => decide (n.row = 1 ∧ n.col = 1)) =
        [{ row := 1, col := 1, value := v2 }]) :=
  ⟨reachable_demo, entry_unique demo reachable_demo 1 1⟩

/-- C4: on every reachable table no stored node has value `0`, and a node with
coordinates `(row, col)` is stored exactly when `get(row, col)` is not `0`. -/
theorem zero_never_stored (m : Matrix) (h : Reachable m) :
    (∀ n ∈ entries m, n.value ≠ 0) ∧
    ∀ row col, (∃ n ∈ entries m, n.row = row ∧ n.col = col) ↔ get m row col ≠ 0 := by
  refine ⟨?_, fun row col => (get_ne_zero_iff h.wf row col).symm⟩
  intro n hn
  obtain ⟨i, hi⟩ := mem_entries.1 hn
  exact h.wf.nonzero i n hi

theorem zero_never_stored_witness :
    Reachable (set demo 1 1 0) ∧
    ((∀ n ∈ entries (set demo 1 1 0), n.value ≠ 0) ∧
     ∀ row col, (∃ n ∈ entries (set demo 1 1 0), n.row = row ∧ n.col = col) ↔
       get (set demo 1 1 0) row col ≠ 0) :=
  ⟨.set reachable_demo 1 1 0, zero_never_stored (set demo 1 1 0) (.set reachable_demo 1 1 0)⟩

/-! ## The iterator -/

theorem chainsFrom_zero (m : Matrix) : chainsFrom m 0 = entries m := rfl

theorem chainsFrom_of_le (m : Matrix) {k : Nat} (h : TABLE_SIZE ≤ k) : chainsFrom m k = [] := by
  unfold chainsFrom
  rw [Nat.sub_eq_zero_of_le h]
  rfl

theorem chainsFrom_step (m : Matrix) {k : Nat} (h : k < TABLE_SIZE) :
    chainsFrom m k = m.buckets ⟨k, h⟩ ++ chainsFrom m (k + 1) := by
  unfold chainsFrom
  have hk : TABLE_SIZE - k = (TABLE_SIZE - (k + 1)) + 1 := by omega
  rw [hk, bucketsFrom_succ _ h, List.flatMap_cons]

theorem remaining_mk (m : Matrix) (bucket : Nat) (node : List Node) :
    remaining m { currentBucket := bucket, currentNode := node } =
      node ++ chainsFrom m (bucket + 1) := rfl

theorem findNextNodeLoop_spec (m : Matrix) :
    ∀ (fuel : Nat) (it : Iterator), TABLE_SIZE ≤ it.currentBucket + fuel →
      it.currentBucket ≤ TABLE_SIZE → (it.currentBucket = TABLE_SIZE → it.currentNode = []) →
      Normal (findNextNodeLoop m fuel it) ∧
      remaining m (findNextNodeLoop m fuel it) = remaining m it := by
  intro fuel
  induction fuel with
  | zero =>
    intro it h1 h2 h3
    have hb : it.currentBucket = TABLE_SIZE := by omega
    exact ⟨Or.inr ⟨hb, h3 hb⟩, rfl⟩
  | succ fuel ih =>
    intro it h1 h2 h3
    unfold findNextNodeLoop
    by_cases hlt : it.currentBucket < TABLE_SIZE
    · rw [if_pos hlt]
      by_cases hnode : it.currentNode ≠ []
      · rw [if_pos hnode]
        exact ⟨Or.inl ⟨hlt, hnode⟩, rfl⟩
      · rw [if_neg hnode]
        have hnil : it.currentNode = [] := not_not.1 hnode
        have hrem : remaining m it = chainsFrom m (it.currentBucket + 1) := by
          unfold remaining
          rw [hnil, List.nil_append]
        show Normal (findNextNodeLoop m fuel
              { currentBucket := it.currentBucket + 1,
                currentNode := if h : it.currentBucket + 1 < TABLE_SIZE
                  then m.buckets ⟨it.currentBucket + 1, h⟩ else it.currentNode }) ∧
            remaining m (findNextNodeLoop m fuel
              { currentBucket := it.currentBucket + 1,
                currentNode := if h : it.currentBucket + 1 < TABLE_SIZE
                  then m.buckets ⟨it.currentBucket + 1, h⟩ else it.currentNode }) =
              remaining m it
        rw [hrem]
        by_cases hnext : it.currentBucket + 1 < TABLE_SIZE
        · rw [dif_pos hnext]
          have hrec := ih
            { currentBucket := it.currentBucket + 1,
              currentNode := m.buckets ⟨it.currentBucket + 1, hnext⟩ }
            (show TABLE_SIZE ≤ it.currentBucket + 1 + fuel by omega)
            (show it.currentBucket + 1 ≤ TABLE_SIZE by omega)
            (fun hb => absurd (show it.currentBucket + 1 = TABLE_SIZE from hb) (by omega))
          refine ⟨hrec.1, hrec.2.trans ?_⟩
          rw [remaining_mk, ← chainsFrom_step m hnext]
        · rw [dif_neg hnext, hnil]
          have hrec := ih { currentBucket := it.currentBucket + 1, currentNode := [] }
            (show TABLE_SIZE ≤ it.currentBucket + 1 + fuel by omega)
            (show it.currentBucket + 1 ≤ TABLE_SIZE by omega)
            (fun _ => rfl)
          refine ⟨hrec.1, hrec.2.trans ?_⟩
          rw [remaining_mk, List.nil_append,
            chainsFrom_of_le m (show TABLE_SIZE ≤ it.currentBucket + 1 + 1 by omega),
            chainsFrom_of_le m (show TABLE_SIZE ≤ it.currentBucket + 1 by omega)]
    · rw [if_neg hlt]
      have hb : it.currentBucket = TABLE_SIZE := by omega
      exact ⟨Or.inr ⟨hb, h3 hb⟩, rfl⟩

theorem findNextNode_spec (m : Matrix) (it : Iterator) (h : it.currentBucket < TABLE_SIZE) :
    Normal (findNextNode m it) ∧ remaining m (findNextNode m it) = remaining m it := by
  unfold findNextNode
  exact findNextNodeLoop_spec m _ it (by omega) (by omega) (by omega)

theorem begin_spec (m : Matrix) : Normal (begin m) ∧ remaining m (begin m) = entries m := by
  have h := findNextNode_spec m { currentBucket := 0, currentNode := m.buckets ⟨0, by decide⟩ }
    (show (0 : Nat) < TABLE_SIZE by decide)
  refine ⟨h.1, ?_⟩
  unfold begin
  rw [h.2, ← chainsFrom_zero, chainsFrom_step m (by decide : 0 < TABLE_SIZE)]
  rfl

theorem Normal.eq_end_iff (m : Matrix) {it : Iterator} (h : Normal it) :
    Iterator.eq it (end_ m) = true ↔ it.currentNode = [] := by
  unfold Iterator.eq end_
  rw [decide_eq_true_iff]
  constructor
  · exact fun h' => h'.2
  · intro hnil
    rcases h with ⟨_, h2⟩ | ⟨h1, _⟩
    · exact absurd hnil h2
    · exact ⟨h1, hnil⟩

theorem increment_spec (m : Matrix) {it : Iterator} (h : Normal it) (x : Node)
    (rest : List Node) (hnode : it.currentNode = x :: rest) :
    Normal (increment m it) ∧ x :: remaining m (increment m it) = remaining m it := by
  have hne : it.currentNode ≠ [] := by rw [hnode]; exact List.cons_ne_nil _ _
  have hlt : it.currentBucket < TABLE_SIZE := by
    rcases h with ⟨h1, _⟩ | ⟨_, h2⟩
    · exact h1
    · exact absurd h2 hne
  have hs := findNextNode_spec m { it with currentNode := it.currentNode.tail } hlt
  unfold increment
  rw [if_pos hne]
  refine ⟨hs.1, ?_⟩
  rw [hs.2]
  unfold remaining
  simp only [hnode, List.tail_cons, List.cons_append]

/-- The loop over a table runs its body on the stored nodes in the order of `entries`,
and exits normally, whenever the fuel exceeds the number of nodes still to visit. -/
theorem forEach_spec {σ : Type} (m : Matrix) (body : σ → Triple → σ) :
    ∀ (l : List Node) (fuel : Nat) (it : Iterator) (s : σ),
      Normal it → remaining m it = l → l.length < fuel →
      forEach m body fuel it s = some (.ok (l.foldl (fun s n => body s n.toTriple) s)) := by
  intro l
  induction l with
  | nil =>
    intro fuel it s hn hrem hlen
    have hnil : it.currentNode = [] := by
      unfold remaining at hrem
      exact (List.append_eq_nil.1 hrem).1
    obtain ⟨f, rfl⟩ : ∃ f, fuel = f + 1 := ⟨fuel - 1, by simp at hlen; omega⟩
    unfold forEach
    rw [if_pos ((hn.eq_end_iff m).2 hnil)]
    rfl
  | cons x rest ih =>
    intro fuel it s hn hrem hlen
    obtain ⟨f, rfl⟩ : ∃ f, fuel = f + 1 := ⟨fuel - 1, by omega⟩
    have hne : it.currentNode ≠ [] := by
      intro hnil
      rcases hn with ⟨_, h2⟩ | ⟨h1, _⟩
      · exact h2 hnil
      · unfold remaining at hrem
        rw [hnil, chainsFrom_of_le m (by omega)] at hrem
        cases hrem
    obtain ⟨y, t, hyt⟩ := List.exists_cons_of_ne_nil hne
    have hinc := increment_spec m hn y t hyt
    rw [hrem] at hinc
    have hxy : y = x := (List.cons.inj hinc.2).1
    have hrest : remaining m (increment m it) = rest := (List.cons.inj hinc.2).2
    subst hxy
    unfold forEach
    have hend : ¬ (Iterator.eq it (end_ m) = true) := fun h' => hne ((hn.eq_end_iff m).1 h')
    rw [if_neg hend]
    have hd : deref it = .ok y.toTriple := by
      unfold deref
      rw [hyt]
      rfl
    rw [hd]
    simp only
    rw [ih f (increment m it) (body s y.toTriple) hinc.1 hrest
      (by simp only [List.length_cons] at hlen; omega)]
    rfl

theorem forEach_begin {σ : Type} (m : Matrix) (body : σ → Triple → σ) (s : σ) (fuel : Nat)
    (h : storedNodes m < fuel) :
    forEach m body fuel (begin m) s =
      some (.ok ((entries m).foldl (fun s n => body s n.toTriple) s)) :=
  forEach_spec m body (entries m) fuel (begin m) s (begin_spec m).1 (begin_spec m).2 h

theorem begin_eq_end_iff (m : Matrix) : begin m = end_ m ↔ entries m = [] := by
  have hb := begin_spec m
  constructor
  · intro h
    rw [← hb.2, h]
    unfold end_
    rw [remaining_mk, List.nil_append,
      chainsFrom_of_le m (show TABLE_SIZE ≤ TABLE_SIZE + 1 by omega)]
  · intro h
    have hnil : (begin m).currentNode = [] := by
      have h2 := hb.2
      rw [h] at h2
      unfold remaining at h2
      exact (List.append_eq_nil.1 h2).1
    rcases hb.1 with ⟨_, h2⟩ | ⟨h1, h2⟩
    · exact absurd hnil h2
    · unfold end_
      cases hit : begin m with
      | mk b node =>
        rw [hit] at h1 h2
        simp only at h1 h2
        rw [h1, h2]

theorem foldl_append_singleton {α β : Type} (f : α → β) (l : List α) (init : List β) :
    l.foldl (fun acc x => acc ++ [f x]) init = init ++ l.map f := by
  induction l generalizing init with
  | nil => simp
  | cons x rest ih => rw [List.foldl_cons, ih, List.map_cons, List.append_assoc]; rfl

/-- With enough fuel the iteration loop exits normally and has produced the triples of the
stored nodes, in the order of `entries`. -/
theorem iterate_eq (m : Matrix) (fuel : Nat) (h : storedNodes m < fuel) :
    iterate m fuel = some (.ok ((entries m).map Node.toTriple)) := by
  unfold iterate
  rw [forEach_begin m _ _ fuel h, foldl_append_singleton Node.toTriple, List.nil_append]

theorem mem_entries_iff_get {m : Matrix} (h : WF m) (n : Node) :
    n ∈ entries m ↔ get m n.row n.col = n.value ∧ n.value ≠ 0 := by
  constructor
  · intro hn
    refine ⟨get_of_mem_entries h hn, ?_⟩
    obtain ⟨i, hi⟩ := mem_entries.1 hn
    exact h.nonzero i n hi
  · rintro ⟨hg, hv⟩
    have hne : get m n.row n.col ≠ 0 := by rw [hg]; exact hv
    obtain ⟨x, hx, hr, hc⟩ := (get_ne_zero_iff h n.row n.col).1 hne
    have hxv := get_of_mem_entries h hx
    rw [hr, hc, hg] at hxv
    have : x = n := by
      cases x; cases n
      simp only [Node.mk.injEq]
      exact ⟨hr, hc, hxv.symm⟩
    rw [← this]
    exact hx

/-- C5: on every reachable table the loop from `begin()` to `end()` exits normally once
the fuel exceeds `nonZeroCount`, and the triples it dereferences are exactly the triples
`(r, c, v)` with `get(r, c) = v` and `v` non-zero, no coordinate pair occurring twice. -/
theorem iterate_complete (m : Matrix) (h : Reachable m) (fuel : Nat)
    (hfuel : nonZeroCount m < fuel) :
    ∃ l : List Triple, iterate m fuel = some (.ok l) ∧
      (∀ t : Triple, t ∈ l ↔ (get m t.row t.col = t.value ∧ t.value ≠ 0)) ∧
      (l.map (fun t => (t.row, t.col))).Nodup := by
  have hw := h.wf
  have hf : storedNodes m < fuel := by
    have := hw.count
    unfold nonZeroCount at hfuel
    omega
  refine ⟨(entries m).map Node.toTriple, iterate_eq m fuel hf, ?_, ?_⟩
  · intro t
    rw [List.mem_map]
    constructor
    · rintro ⟨n, hn, rfl⟩
      exact (mem_entries_iff_get hw n).1 hn
    · intro ht
      refine ⟨{ row := t.row, col := t.col, value := t.value }, ?_, rfl⟩
      exact (mem_entries_iff_get hw _).2 ht
  · rw [List.map_map]
    exact nodup_coords_entries hw

theorem iterate_complete_witness :
    Reachable demo ∧ nonZeroCount demo < 6 ∧
    ∃ l : List Triple, iterate demo 6 = some (.ok l) ∧
      (∀ t : Triple, t ∈ l ↔ (get demo t.row t.col = t.value ∧ t.value ≠ 0)) ∧
      (l.map (fun t => (t.row, t.col))).Nodup :=
  ⟨reachable_demo, by decide, iterate_complete demo reachable_demo 6 (by decide)⟩

/-! ## Rebuilding a table from a list of nodes -/

theorem insertAll_nil (k : Int × Int → Int × Int) (t : Matrix) : insertAll k t [] = t := rfl

theorem insertAll_cons (k : Int × Int → Int × Int) (t : Matrix) (x : Node) (rest : List Node) :
    insertAll k t (x :: rest) =
      insertAll k (set t (k (coords x)).1 (k (coords x)).2 x.value) rest := rfl

theorem wf_insertAll (k : Int × Int → Int × Int) {t : Matrix} (h : WF t) (l : List Node) :
    WF (insertAll k t l) := by
  induction l generalizing t with
  | nil => exact h
  | cons x rest ih =>
    rw [insertAll_cons]
    exact ih (wf_set h _ _ _)

theorem get_insertAll_of_not_mem (k : Int × Int → Int × Int) (t : Matrix) (l : List Node)
    (row col : Int) (h : ∀ n ∈ l, k (coords n) ≠ (row, col)) :
    get (insertAll k t l) row col = get t row col := by
  induction l generalizing t with
  | nil => rfl
  | cons x rest ih =>
    rw [insertAll_cons, ih _ (fun n hn => h n (List.mem_cons_of_mem _ hn))]
    apply get_set_other
    intro hc
    apply h x (List.mem_cons_self _ _)
    exact Prod.ext hc.1 hc.2

theorem get_insertAll_of_mem {k : Int × Int → Int × Int} (hk : Function.Injective k)
    {t : Matrix} (h : WF t) {l : List Node} (hnd : (l.map coords).Nodup)
    {n : Node} (hn : n ∈ l) :
    get (insertAll k t l) (k (coords n)).1 (k (coords n)).2 = n.value := by
  induction l generalizing t with
  | nil => cases hn
  | cons x rest ih =>
    rw [List.map_cons, List.nodup_cons] at hnd
    rw [insertAll_cons]
    rcases List.mem_cons.1 hn with rfl | hn'
    · rw [get_insertAll_of_not_mem]
      · exact get_set_same h _ _ _
      · intro y hy hky
        apply hnd.1
        have : coords y = coords n := hk hky
        rw [← this]
        exact List.mem_map_of_mem _ hy
    · exact ih (wf_set h _ _ _) hnd.2 hn'

theorem set_count_of_get_eq_zero {t : Matrix} (h : WF t) {row col : Int} {value : Rat}
    (hg : get t row col = 0) (hv : value ≠ 0) :
    (set t row col value).nonZeroElements = t.nonZeroElements + 1 := by
  have hnot : (row, col) ∉ (t.buckets (hash row col)).map coords := by
    intro hm
    obtain ⟨n, hn, hc⟩ := hasCoord_iff_mem.2 hm
    exact (get_ne_zero_iff h row col).2 ⟨n, mem_entries.2 ⟨_, hn⟩, hc⟩ hg
  rw [set_nonZeroElements, if_neg hnot, if_neg hv]

theorem count_insertAll {k : Int × Int → Int × Int} (hk : Function.Injective k)
    {t : Matrix} (h : WF t) {l : List Node} (hnd : (l.map coords).Nodup)
    (hv : ∀ n ∈ l, n.value ≠ 0)
    (hfresh : ∀ n ∈ l, get t (k (coords n)).1 (k (coords n)).2 = 0) :
    (insertAll k t l).nonZeroElements = t.nonZeroElements + l.length := by
  induction l generalizing t with
  | nil => rfl
  | cons x rest ih =>
    rw [List.map_cons, List.nodup_cons] at hnd
    rw [insertAll_cons, ih (wf_set h _ _ _) hnd.2
      (fun n hn => hv n (List.mem_cons_of_mem _ hn))]
    · rw [set_count_of_get_eq_zero h (hfresh x (List.mem_cons_self _ _))
        (hv x (List.mem_cons_self _ _)), List.length_cons]
      omega
    · intro n hn
      rw [get_set_other]
      · exact hfresh n (List.mem_cons_of_mem _ hn)
      · intro hc
        apply hnd.1
        have hkk : k (coords x) = k (coords n) := Prod.ext hc.1 hc.2
        rw [hk hkk]
        exact List.mem_map_of_mem _ hn

theorem get_empty (row col : Int) : get empty row col = 0 := rfl

/-- Contents and counter of the table rebuilt from the nodes of a well-formed table,
coordinates mapped by an injective `k`. -/
theorem insertAll_entries {k : Int × Int → Int × Int} (hk : Function.Injective k)
    {m : Matrix} (h : WF m) :
    WF (insertAll k empty (entries m)) ∧
    (∀ row col, get (insertAll k empty (entries m)) (k (row, col)).1 (k (row, col)).2 =
      get m row col) ∧
    (∀ row col, (∀ p, k p ≠ (row, col)) → get (insertAll k empty (entries m)) row col = 0) ∧
    (insertAll k empty (entries m)).nonZeroElements = m.nonZeroElements := by
  refine ⟨wf_insertAll k wf_empty _, ?_, ?_, ?_⟩
  · intro row col
    by_cases hg : get m row col = 0
    · rw [hg, get_insertAll_of_not_mem, get_empty]
      intro n hn hkn
      have hc : coords n = (row, col) := hk (by rw [hkn])
      simp only [coords, Prod.mk.injEq] at hc
      exact (get_ne_zero_iff h row col).2 ⟨n, hn, hc⟩ hg
    · obtain ⟨n, hn, hr, hc⟩ := (get_ne_zero_iff h row col).1 hg
      have hval := get_of_mem_entries h hn
      have hget := get_insertAll_of_mem hk wf_empty (nodup_coords_entries h) hn
      have hco : coords n = (row, col) := by simp [coords, hr, hc]
      rw [hco] at hget
      rw [hget, ← hval, hr, hc]
  · intro row col hno
    rw [get_insertAll_of_not_mem, get_empty]
    intro n _
    exact hno _
  · rw [count_insertAll hk wf_empty (nodup_coords_entries h)]
    · rw [h.count]
      show 0 + (entries m).length = storedNodes m
      unfold storedNodes
      omega
    · intro n hn
      obtain ⟨i, hi⟩ := mem_entries.1 hn
      exact h.nonzero i n hi
    · intro n _
      exact get_empty _ _

/-! ## Transpose -/

theorem storedNodes_lt_loopFuel (m : Matrix) : storedNodes m < loopFuel m :=
  Nat.lt_succ_self _

theorem transposeLoop_eq (m : Matrix) (fuel : Nat) (h : storedNodes m < fuel) :
    transposeLoop m fuel = some (.ok (insertAll Prod.swap empty (entries m))) := by
  unfold transposeLoop
  rw [forEach_begin m _ _ fuel h]
  rfl

theorem transpose_eq (m : Matrix) : transpose m = insertAll Prod.swap empty (entries m) := by
  unfold transpose
  rw [transposeLoop_eq m _ (storedNodes_lt_loopFuel m)]

theorem wf_transpose {m : Matrix} (h : WF m) : WF (transpose m) := by
  rw [transpose_eq]
  exact (insertAll_entries Prod.swap_injective h).1

theorem get_transpose {m : Matrix} (h : WF m) (row col : Int) :
    get (transpose m) col row = get m row col := by
  rw [transpose_eq]
  exact (insertAll_entries Prod.swap_injective h).2.1 row col

theorem count_transpose {m : Matrix} (h : WF m) :
    (transpose m).nonZeroElements = m.nonZeroElements := by
  rw [transpose_eq]
  exact (insertAll_entries Prod.swap_injective h).2.2.2

theorem demo_get : get (set demo 1 1 0) 5 10 = 4 ∧ get (set demo 1 1 0) 10 5 = 5 := by
  decide

/-- C6: on every reachable table the loop of `transpose` exits normally once the fuel
exceeds `nonZeroCount`, with the table `transpose m`, and `get` on that table at `(c, r)`
is `get` on the source at `(r, c)`. -/
theorem transpose_swaps (m : Matrix) (h : Reachable m) :
    (∀ fuel, nonZeroCount m < fuel → transposeLoop m fuel = some (.ok (transpose m))) ∧
    ∀ row col, get (transpose m) col row = get m row col := by
  refine ⟨?_, get_transpose h.wf⟩
  intro fuel hfuel
  rw [transpose_eq]
  apply transposeLoop_eq
  have := h.wf.count
  unfold nonZeroCount at hfuel
  omega

theorem transpose_swaps_witness :
    Reachable (set demo 1 1 0) ∧
    get (transpose (set demo 1 1 0)) 10 5 = 4 ∧ get (transpose (set demo 1 1 0)) 5 10 = 5 :=
  ⟨.set reachable_demo 1 1 0,
   ((transpose_swaps (set demo 1 1 0) (.set reachable_demo 1 1 0)).2 5 10).trans demo_get.1,
   ((transpose_swaps (set demo 1 1 0) (.set reachable_demo 1 1 0)).2 10 5).trans demo_get.2⟩

/-- C7: on every reachable table, transposing twice gives a table on which `get` agrees
with the source at every coordinate pair and which stores the same nodes (as a set). -/
theorem transpose_involution (m : Matrix) (h : Reachable m) :
    (∀ row col, get (transpose (transpose m)) row col = get m row col) ∧
    ∀ n : Node, n ∈ entries (transpose (transpose m)) ↔ n ∈ entries m := by
  have hw := h.wf
  have hget : ∀ row col, get (transpose (transpose m)) row col = get m row col := by
    intro row col
    rw [get_transpose (wf_transpose hw), get_transpose hw]
  refine ⟨hget, ?_⟩
  intro n
  rw [mem_entries_iff_get (wf_transpose (wf_transpose hw)), mem_entries_iff_get hw, hget]

theorem transpose_involution_witness :
    Reachable demo ∧
    ((∀ row col, get (transpose (transpose demo)) row col = get demo row col) ∧
     ∀ n : Node, n ∈ entries (transpose (transpose demo)) ↔ n ∈ entries demo) :=
  ⟨reachable_demo, transpose_involution demo reachable_demo⟩

/-- C8: on every reachable table `transpose` preserves `nonZeroCount`. -/
theorem transpose_nonZeroCount (m : Matrix) (h : Reachable m) :
    nonZeroCount (transpose m) = nonZeroCount m :=
  count_transpose h.wf

theorem transpose_nonZeroCount_witness :
    Reachable demo ∧ nonZeroCount (transpose demo) = 5 :=
  ⟨reachable_demo, (transpose_nonZeroCount demo reachable_demo).trans demo_nonZeroCount.1⟩

/-! ## Copy and move -/

theorem foldl_clear (l : List (Fin TABLE_SIZE)) (b : Fin TABLE_SIZE → List Node)
    (j : Fin TABLE_SIZE) :
    (l.foldl (fun b i => setBucket b i []) b) j = if j ∈ l then [] else b j := by
  induction l generalizing b with
  | nil => simp
  | cons i rest ih =>
    rw [List.foldl_cons, ih]
    by_cases hj : j ∈ rest
    · rw [if_pos hj, if_pos (List.mem_cons_of_mem _ hj)]
    · rw [if_neg hj]
      by_cases hji : j = i
      · rw [hji, setBucket_same, if_pos (List.mem_cons_self _ _)]
      · rw [setBucket_other _ _ hji, if_neg]
        intro hm
        rcases List.mem_cons.1 hm with h1 | h1
        · exact hji h1
        · exact hj h1

theorem forBuckets_clear (b : Fin TABLE_SIZE → List Node) :
    forBuckets (fun b i => setBucket b i []) b = fun _ => [] := by
  funext j
  unfold forBuckets
  rw [foldl_clear, if_pos (mem_bucketIndices j)]

theorem construct_eq_empty (uninit : Fin TABLE_SIZE → List Node) : construct uninit = empty := by
  unfold construct empty
  rw [forBuckets_clear]

theorem cleanup_eq_empty (m : Matrix) : cleanup m = empty := by
  unfold cleanup empty
  rw [forBuckets_clear]

theorem copyLoop_eq (self other : Matrix) (fuel : Nat) (h : storedNodes other < fuel) :
    copyLoop self other fuel = some (.ok (insertAll id self (entries other))) := by
  unfold copyLoop
  rw [forEach_begin other _ _ fuel h]
  rfl

theorem copyCtor_eq (uninit : Fin TABLE_SIZE → List Node) (other : Matrix) :
    copyCtor uninit other = insertAll id empty (entries other) := by
  unfold copyCtor
  rw [copyLoop_eq _ other _ (storedNodes_lt_loopFuel other), construct_eq_empty]

theorem copyAssign_eq (self other : Matrix) :
    copyAssign self other = insertAll id empty (entries other) := by
  unfold copyAssign
  rw [copyLoop_eq _ other _ (storedNodes_lt_loopFuel other), cleanup_eq_empty]

theorem copy_contents {m : Matrix} (h : WF m) :
    (∀ row col, get (insertAll id empty (entries m)) row col = get m row col) ∧
    nonZeroCount (insertAll id empty (entries m)) = nonZeroCount m :=
  ⟨(insertAll_entries Function.injective_id h).2.1,
   (insertAll_entries Function.injective_id h).2.2.2⟩

/-- C9: for every reachable table `m`, the copy constructor and copy assignment into any
destination (whatever it held, and also into `m` itself) run their loop to its normal exit
once the fuel exceeds `nonZeroCount`, and give a table with the same `get` at every
coordinate pair and the same `nonZeroCount` as `m`. -/
theorem copy_equal (m : Matrix) (h : Reachable m) :
    (∀ uninit,
      (∀ fuel, nonZeroCount m < fuel →
        copyLoop (construct uninit) m fuel = some (.ok (copyCtor uninit m))) ∧
      (∀ row col, get (copyCtor uninit m) row col = get m row col) ∧
      nonZeroCount (copyCtor uninit m) = nonZeroCount m) ∧
    (∀ dest,
      (∀ fuel, nonZeroCount m < fuel →
        copyLoop (cleanup dest) m fuel = some (.ok (copyAssign dest m))) ∧
      (∀ row col, get (copyAssign dest m) row col = get m row col) ∧
      nonZeroCount (copyAssign dest m) = nonZeroCount m) ∧
    ((∀ row col, get (copyAssignSelf m) row col = get m row col) ∧
      nonZeroCount (copyAssignSelf m) = nonZeroCount m) := by
  have hw := h.wf
  have hfuel : ∀ fuel, nonZeroCount m < fuel → storedNodes m < fuel := by
    intro fuel hf
    have := hw.count
    unfold nonZeroCount at hf
    omega
  refine ⟨?_, ?_, fun _ _ => rfl, rfl⟩
  · intro uninit
    refine ⟨?_, ?_⟩
    · intro fuel hf
      rw [copyCtor_eq, copyLoop_eq _ m fuel (hfuel fuel hf), construct_eq_empty]
    · rw [copyCtor_eq]
      exact copy_contents hw
  · intro dest
    refine ⟨?_, ?_⟩
    · intro fuel hf
      rw [copyAssign_eq, copyLoop_eq _ m fuel (hfuel fuel hf), cleanup_eq_empty]
    · rw [copyAssign_eq]
      exact copy_contents hw

theorem copy_equal_witness :
    Reachable (set demo 1 1 0) ∧
    get (copyCtor (fun _ => []) (set demo 1 1 0)) 5 10 = 4 ∧
    nonZeroCount (copyAssign demo (set demo 1 1 0)) = 4 :=
  ⟨.set reachable_demo 1 1 0,
   (((copy_equal (set demo 1 1 0) (.set reachable_demo 1 1 0)).1 (fun _ => [])).2.1 5 10).trans
     demo_get.1,
   (((copy_equal (set demo 1 1 0) (.set reachable_demo 1 1 0)).2.1 demo).2.2).trans
     demo_nonZeroCount.2⟩

theorem foldl_move (l : List (Fin TABLE_SIZE)) (hnd : l.Nodup)
    (s : (Fin TABLE_SIZE → List Node) × (Fin TABLE_SIZE → List Node)) (j : Fin TABLE_SIZE) :
    (l.foldl (fun (s : (Fin TABLE_SIZE → List Node) × (Fin TABLE_SIZE → List Node)) i =>
        (setBucket s.1 i (s.2 i), setBucket s.2 i [])) s).1 j
      = (if j ∈ l then s.2 j else s.1 j) ∧
    (l.foldl (fun (s : (Fin TABLE_SIZE → List Node) × (Fin TABLE_SIZE → List Node)) i =>
        (setBucket s.1 i (s.2 i), setBucket s.2 i [])) s).2 j
      = (if j ∈ l then [] else s.2 j) := by
  induction l generalizing s with
  | nil => simp
  | cons i rest ih =>
    rw [List.nodup_cons] at hnd
    rw [List.foldl_cons]
    have hrec := ih hnd.2 (setBucket s.1 i (s.2 i), setBucket s.2 i [])
    rw [hrec.1, hrec.2]
    by_cases hji : j = i
    · subst hji
      rw [if_neg hnd.1, if_neg hnd.1, if_pos (List.mem_cons_self _ _),
        if_pos (List.mem_cons_self _ _)]
      exact ⟨setBucket_same _ _ _, setBucket_same _ _ _⟩
    · by_cases hj : j ∈ rest
      · rw [if_pos hj, if_pos hj, if_pos (List.mem_cons_of_mem _ hj),
          if_pos (List.mem_cons_of_mem _ hj)]
        exact ⟨setBucket_other _ _ hji, rfl⟩
      · have hj2 : j ∉ i :: rest := by
          intro hm
          rcases List.mem_cons.1 hm with h1 | h1
          · exact hji h1
          · exact hj h1
        rw [if_neg hj, if_neg hj, if_neg hj2, if_neg hj2]
        exact ⟨setBucket_other _ _ hji, setBucket_other _ _ hji⟩

theorem moveBuckets_eq (self other : Fin TABLE_SIZE → List Node) :
    moveBuckets self other = (other, fun _ => []) := by
  unfold moveBuckets forBuckets
  apply Prod.ext
  · funext j
    rw [(foldl_move _ nodup_bucketIndices (self, other) j).1, if_pos (mem_bucketIndices j)]
  · funext j
    rw [(foldl_move _ nodup_bucketIndices (self, other) j).2, if_pos (mem_bucketIndices j)]

theorem moveCtor_fst (uninit : Fin TABLE_SIZE → List Node) (other : Matrix) :
    (moveCtor uninit other).1 = other := by
  unfold moveCtor
  rw [moveBuckets_eq]

theorem moveCtor_snd (uninit : Fin TABLE_SIZE → List Node) (other : Matrix) :
    (moveCtor uninit other).2 = empty := by
  unfold moveCtor
  rw [moveBuckets_eq]
  rfl

/-- C10: for every table `m` (and whatever the new object's storage held), the move
constructor gives a table with the chains of `m` at the same indices and the counter of
`m`, and leaves `m` with every bucket empty, `nonZeroCount` 0, `get` 0 everywhere and
`begin()` equal to `end()`. -/
theorem move_semantics (uninit : Fin TABLE_SIZE → List Node) (m : Matrix) :
    (∀ i, (moveCtor uninit m).1.buckets i = m.buckets i) ∧
    nonZeroCount (moveCtor uninit m).1 = nonZeroCount m ∧
    (∀ i, (moveCtor uninit m).2.buckets i = []) ∧
    nonZeroCount (moveCtor uninit m).2 = 0 ∧
    (∀ row col, get (moveCtor uninit m).2 row col = 0) ∧
    begin (moveCtor uninit m).2 = end_ (moveCtor uninit m).2 := by
  rw [moveCtor_fst, moveCtor_snd]
  refine ⟨fun _ => rfl, rfl, fun _ => rfl, rfl, get_empty, ?_⟩
  exact (begin_eq_end_iff empty).2 entries_empty

/-! ## Stepping the iterator -/

theorem drop_succ_of_drop_eq_cons {α : Type} {l : List α} {n : Nat} {x : α} {rest : List α}
    (h : l.drop n = x :: rest) : l.drop (n + 1) = rest := by
  rw [← List.tail_drop, h, List.tail_cons]

theorem drop_succ_of_drop_eq_nil {α : Type} {l : List α} {n : Nat}
    (h : l.drop n = []) : l.drop (n + 1) = [] := by
  rw [← List.tail_drop, h, List.tail_nil]

theorem increment_of_null (m : Matrix) {it : Iterator} (h : it.currentNode = []) :
    increment m it = it := by
  unfold increment
  rw [if_neg (not_not.2 h)]

theorem advance_spec (m : Matrix) (n : Nat) :
    Normal (advance m n) ∧ remaining m (advance m n) = (entries m).drop n := by
  induction n with
  | zero =>
    refine ⟨(begin_spec m).1, ?_⟩
    rw [List.drop_zero]
    exact (begin_spec m).2
  | succ n ih =>
    show Normal (increment m (advance m n)) ∧
      remaining m (increment m (advance m n)) = (entries m).drop (n + 1)
    cases hnode : (advance m n).currentNode with
    | nil =>
      rw [increment_of_null m hnode]
      refine ⟨ih.1, ?_⟩
      have hrem : remaining m (advance m n) = [] := by
        rcases ih.1 with ⟨_, h2⟩ | ⟨h1, _⟩
        · exact absurd hnode h2
        · unfold remaining
          rw [hnode, h1, List.nil_append,
            chainsFrom_of_le m (show TABLE_SIZE ≤ TABLE_SIZE + 1 by omega)]
      rw [hrem]
      rw [hrem] at ih
      exact (drop_succ_of_drop_eq_nil ih.2.symm).symm
    | cons x rest =>
      have hinc := increment_spec m ih.1 x rest hnode
      refine ⟨hinc.1, ?_⟩
      have h2 : (entries m).drop n = x :: remaining m (increment m (advance m n)) := by
        rw [hinc.2]
        exact ih.2.symm
      exact (drop_succ_of_drop_eq_cons h2).symm

theorem advance_currentNode_eq_nil_iff (m : Matrix) (n : Nat) :
    (advance m n).currentNode = [] ↔ storedNodes m ≤ n := by
  have hs := advance_spec m n
  unfold storedNodes
  rw [← List.drop_eq_nil_iff, ← hs.2]
  constructor
  · intro hnil
    rcases hs.1 with ⟨_, h2⟩ | ⟨h1, _⟩
    · exact absurd hnil h2
    · unfold remaining
      rw [hnil, h1, List.nil_append,
        chainsFrom_of_le m (show TABLE_SIZE ≤ TABLE_SIZE + 1 by omega)]
  · intro hrem
    unfold remaining at hrem
    exact (List.append_eq_nil.1 hrem).1

theorem advance_eq_end_iff (m : Matrix) (n : Nat) :
    Iterator.eq (advance m n) (end_ m) = true ↔ storedNodes m ≤ n := by
  rw [(advance_spec m n).1.eq_end_iff m, advance_currentNode_eq_nil_iff]

theorem deref_eq_error_iff (it : Iterator) :
    deref it = .error .out_of_range ↔ it.currentNode = [] := by
  unfold deref
  cases it.currentNode with
  | nil => exact ⟨fun _ => rfl, fun _ => rfl⟩
  | cons x rest =>
    constructor
    · intro h; cases h
    · intro h; cases h

/-- C11: for every table (reachable or not) and every `n`, dereferencing the iterator
obtained from `begin()` by `n` increments throws `out_of_range` exactly when that
iterator compares equal to `end()`; otherwise it is positioned on a node, which is the
node number `n` in iteration order, and the dereference returns the triple of that node. -/
theorem deref_fails_iff_end (m : Matrix) (n : Nat) :
    (deref (advance m n) = .error .out_of_range ↔
      Iterator.eq (advance m n) (end_ m) = true) ∧
    (Iterator.eq (advance m n) (end_ m) = false →
      ∃ node rest, (advance m n).currentNode = node :: rest ∧
        (entries m).get? n = some node ∧
        deref (advance m n) =
          .ok { row := node.row, col := node.col, value := node.value }) := by
  have hs := advance_spec m n
  refine ⟨?_, ?_⟩
  · rw [deref_eq_error_iff, hs.1.eq_end_iff m]
  · intro hne
    have hnode : (advance m n).currentNode ≠ [] := by
      intro hnil
      rw [(hs.1.eq_end_iff m).2 hnil] at hne
      cases hne
    obtain ⟨x, rest, hx⟩ := List.exists_cons_of_ne_nil hnode
    refine ⟨x, rest, hx, ?_, ?_⟩
    · have hrem : (entries m).drop n = x :: (rest ++ chainsFrom m ((advance m n).currentBucket + 1)) := by
        rw [← hs.2]
        unfold remaining
        rw [hx, List.cons_append]
      have h0 : ((entries m).drop n)[0]? = some x := by
        rw [hrem, List.getElem?_cons_zero]
      rw [List.getElem?_drop] at h0
      rw [List.get?_eq_getElem?]
      exact h0
    · unfold deref
      rw [hx]

/-- C15: for every table, with fuel above the number of stored nodes, the loop from
`begin()` to `end()` exits normally and the triples it dereferences are, in order, the
chains of buckets `0, 1, ..., 996` read head to tail and concatenated. -/
theorem iterate_eq_bucketOrder (m : Matrix) (fuel : Nat) (h : storedNodes m < fuel) :
    iterate m fuel = some (.ok (bucketOrder m)) := by
  unfold bucketOrder
  rw [iterate_eq m fuel h, entries_eq_flatMap, List.map_flatMap]

theorem iterate_eq_bucketOrder_witness :
    storedNodes demo < loopFuel demo ∧
    iterate demo (loopFuel demo) = some (.ok (bucketOrder demo)) :=
  ⟨storedNodes_lt_loopFuel demo,
   iterate_eq_bucketOrder demo (loopFuel demo) (storedNodes_lt_loopFuel demo)⟩

theorem entries_eq_nil_iff (m : Matrix) : entries m = [] ↔ ∀ i, m.buckets i = [] := by
  constructor
  · intro h i
    apply List.eq_nil_iff_forall_not_mem.2
    intro n hn
    have : n ∈ entries m := mem_entries.2 ⟨i, hn⟩
    rw [h] at this
    cases this
  · intro h
    apply List.eq_nil_iff_forall_not_mem.2
    intro n hn
    obtain ⟨i, hi⟩ := mem_entries.1 hn
    rw [h i] at hi
    cases hi

/-- C16: on every reachable table the iterator obtained from `begin()` by `k` increments
differs from `end()` for every `k < nonZeroCount()` and equals `end()` for
`k = nonZeroCount()`; `begin()` equals `end()` exactly when every bucket is empty; and
the loop `for (it = begin(); it != end(); ++it)` reaches its normal exit, for every body,
as soon as the fuel exceeds `nonZeroCount()`. -/
theorem iteration_steps (m : Matrix) (h : Reachable m) :
    (∀ k, k < nonZeroCount m → Iterator.eq (advance m k) (end_ m) = false) ∧
    Iterator.eq (advance m (nonZeroCount m)) (end_ m) = true ∧
    (Iterator.eq (begin m) (end_ m) = true ↔ ∀ i, m.buckets i = []) ∧
    (∀ (σ : Type) (body : σ → Triple → σ) (s : σ) (fuel : Nat), nonZeroCount m < fuel →
      ∃ s', forEach m body fuel (begin m) s = some (.ok s')) := by
  have hc : nonZeroCount m = storedNodes m := h.wf.count
  refine ⟨?_, ?_, ?_, ?_⟩
  · intro k hk
    cases hb : Iterator.eq (advance m k) (end_ m) with
    | false => rfl
    | true =>
      have := (advance_eq_end_iff m k).1 hb
      omega
  · rw [advance_eq_end_iff, hc]
  · have h0 := advance_eq_end_iff m 0
    rw [show advance m 0 = begin m from rfl] at h0
    rw [h0, ← entries_eq_nil_iff]
    unfold storedNodes
    rw [Nat.le_zero, List.length_eq_zero]
  · intro σ body s fuel hf
    exact ⟨_, forEach_begin m body s fuel (by omega)⟩

theorem iteration_steps_witness :
    Reachable demo ∧
    (∀ k, k < nonZeroCount demo → Iterator.eq (advance demo k) (end_ demo) = false) ∧
    Iterator.eq (advance demo (nonZeroCount demo)) (end_ demo) = true ∧
    (Iterator.eq (begin demo) (end_ demo) = true ↔ ∀ i, demo.buckets i = []) ∧
    (∀ (σ : Type) (body : σ → Triple → σ) (s : σ) (fuel : Nat), nonZeroCount demo < fuel →
      ∃ s', forEach demo body fuel (begin demo) s = some (.ok s')) :=
  ⟨reachable_demo, iteration_steps demo reachable_demo⟩

/-! ## The hash function -/

theorem toSizeT_of_nonneg {x : Int} (h0 : 0 ≤ x) (h1 : x < 2 ^ 64) : toSizeT x = x.toNat := by
  unfold toSizeT
  rw [Int.emod_eq_of_lt h0 (by simpa using h1)]

theorem toSizeT_lt (x : Int) : toSizeT x < SIZE_MOD := by
  unfold toSizeT
  have hpos : (0 : Int) < ((SIZE_MOD : Nat) : Int) := by norm_num
  have h1 := Int.emod_lt_of_pos x hpos
  have h0 := Int.emod_nonneg x (ne_of_gt hpos)
  omega

theorem pairing_no_wrap {a b : Nat} (ha : a ≤ 2 ^ 31 - 1) (hb : b ≤ 2 ^ 31 - 1) :
    a + b + 1 < SIZE_MOD ∧ (a + b) * (a + b + 1) < SIZE_MOD ∧
    (a + b) * (a + b + 1) / 2 + b < SIZE_MOD := by
  have h1 : a + b ≤ 2 ^ 32 - 2 := by omega
  have h2 : a + b + 1 ≤ 2 ^ 32 - 1 := by omega
  have h3 : (a + b) * (a + b + 1) ≤ (2 ^ 32 - 2) * (2 ^ 32 - 1) := Nat.mul_le_mul h1 h2
  have h4 : (a + b) * (a + b + 1) / 2 ≤ (a + b) * (a + b + 1) := Nat.div_le_self _ _
  have e : SIZE_MOD = 18446744073709551616 := by norm_num
  rw [e]
  norm_num at h1 h2 h3 hb
  refine ⟨by omega, by omega, by omega⟩

theorem cantor_of_small {row col : Int} (hr0 : 0 ≤ row) (hr : row ≤ 2 ^ 31 - 1)
    (hc0 : 0 ≤ col) (hc : col ≤ 2 ^ 31 - 1) :
    cantor row col =
      (row.toNat + col.toNat) * (row.toNat + col.toNat + 1) / 2 + col.toNat := by
  have ha : row.toNat ≤ 2 ^ 31 - 1 := by omega
  have hb : col.toNat ≤ 2 ^ 31 - 1 := by omega
  obtain ⟨w1, w2, w3⟩ := pairing_no_wrap ha hb
  unfold cantor
  rw [toSizeT_of_nonneg hr0 (by omega), toSizeT_of_nonneg hc0 (by omega)]
  show ((((row.toNat + col.toNat) % SIZE_MOD) * ((row.toNat + col.toNat + 1) % SIZE_MOD))
      % SIZE_MOD / 2 + col.toNat) % SIZE_MOD = _
  rw [Nat.mod_eq_of_lt (show row.toNat + col.toNat < SIZE_MOD by omega),
    Nat.mod_eq_of_lt w1, Nat.mod_eq_of_lt w2, Nat.mod_eq_of_lt w3]

/-- C13: for coordinates `0 <= row, col <= 2^31 - 1` the `size_t` conversions are the
coordinates themselves, no step of the unsigned 64-bit computation in `hash` reaches
`2^64`, and `hash(row, col)` is `((row + col) * (row + col + 1) / 2 + col) mod 997`
evaluated over the natural numbers. -/
theorem hash_eq_pairing (row col : Int) (hr0 : 0 ≤ row) (hr : row ≤ 2 ^ 31 - 1)
    (hc0 : 0 ≤ col) (hc : col ≤ 2 ^ 31 - 1) :
    toSizeT row = row.toNat ∧ toSizeT col = col.toNat ∧
    row.toNat + col.toNat + 1 < SIZE_MOD ∧
    (row.toNat + col.toNat) * (row.toNat + col.toNat + 1) < SIZE_MOD ∧
    (row.toNat + col.toNat) * (row.toNat + col.toNat + 1) / 2 + col.toNat < SIZE_MOD ∧
    (hash row col).val =
      ((row.toNat + col.toNat) * (row.toNat + col.toNat + 1) / 2 + col.toNat) % 997 := by
  have ha : row.toNat ≤ 2 ^ 31 - 1 := by omega
  have hb : col.toNat ≤ 2 ^ 31 - 1 := by omega
  obtain ⟨w1, w2, w3⟩ := pairing_no_wrap ha hb
  refine ⟨toSizeT_of_nonneg hr0 (by omega), toSizeT_of_nonneg hc0 (by omega), w1, w2, w3, ?_⟩
  show cantor row col % TABLE_SIZE = _
  rw [cantor_of_small hr0 hr hc0 hc]

theorem hash_eq_pairing_witness :
    (0 : Int) ≤ 5 ∧ (5 : Int) ≤ 2 ^ 31 - 1 ∧ (0 : Int) ≤ 10 ∧ (10 : Int) ≤ 2 ^ 31 - 1 ∧
    (hash 5 10).val = (((5 : Int).toNat + (10 : Int).toNat) *
      ((5 : Int).toNat + (10 : Int).toNat + 1) / 2 + (10 : Int).toNat) % 997 :=
  ⟨by decide, by decide, by decide, by decide,
   (hash_eq_pairing 5 10 (by decide) (by decide) (by decide) (by decide)).2.2.2.2.2⟩

/-- C14 (as stated) fails at `(row, col) = (0, -1)`: the key of the specification is
`-1`, which is negative, while `hash(0, -1)` is `(2^64 - 1) mod 997 = 960`, which is
neither `-1 mod 997 = 996` nor the truncated remainder `-1`. -/
theorem hash_signed_counterexample :
    ¬ ((0 : Int) ≤ pairingKey 0 (-1) ∧
       ((hash 0 (-1)).val : Int) = pairingKey 0 (-1) % 997) ∧
    pairingKey 0 (-1) = -1 ∧ (hash 0 (-1)).val = 960 ∧
    ((hash 0 (-1)).val : Int) ≠ Int.tmod (pairingKey 0 (-1)) 997 := by
  decide

theorem toSizeT_cast (x : Int) : ((toSizeT x : Nat) : Int) = x % 2 ^ 64 := by
  unfold toSizeT
  have e : ((SIZE_MOD : Nat) : Int) = 2 ^ 64 := by norm_num
  rw [e, Int.toNat_of_nonneg (Int.emod_nonneg _ (by norm_num))]

theorem consecutive_product_bounds {s : Int} (h0 : -(2 ^ 32) ≤ s) (h1 : s ≤ 2 ^ 32 - 2) :
    0 ≤ s * (s + 1) ∧ s * (s + 1) ≤ 2 ^ 64 - 2 ^ 32 := by
  constructor
  · by_cases hs : 0 ≤ s
    · exact mul_nonneg hs (by omega)
    · have h2 : 0 ≤ (-s) * (-(s + 1)) := mul_nonneg (by omega) (by omega)
      have e : (-s) * (-(s + 1)) = s * (s + 1) := by ring
      rw [e] at h2
      exact h2
  · have h2 : 0 ≤ (s + 2 ^ 32) * (2 ^ 32 - 2 - s) := mul_nonneg (by omega) (by omega)
    nlinarith

/-- For 32-bit coordinates of either sign the unsigned computation of `hash` yields, before
`% TABLE_SIZE`, the integer key of the specification reduced modulo `2^64`: the product of
the two consecutive wrapped sums is the product of the consecutive integers, which lies
in `[0, 2^64)`, and only the final addition of the converted column can wrap. -/
theorem cantor_cast (row col : Int) (hr : -(2 ^ 31) ≤ row ∧ row ≤ 2 ^ 31 - 1)
    (hc : -(2 ^ 31) ≤ col ∧ col ≤ 2 ^ 31 - 1) :
    ((cantor row col : Nat) : Int) = pairingKey row col % 2 ^ 64 := by
  have ha := toSizeT_cast row
  have hb := toSizeT_cast col
  obtain ⟨hp0, hp1⟩ := consecutive_product_bounds (s := row + col) (by omega) (by omega)
  have e : ((SIZE_MOD : Nat) : Int) = 2 ^ 64 := by norm_num
  show ((((((toSizeT row + toSizeT col) % SIZE_MOD) * ((toSizeT row + toSizeT col + 1) % SIZE_MOD))
      % SIZE_MOD / 2 + toSizeT col) % SIZE_MOD : Nat) : Int) = _
  simp only [Int.natCast_mod, Int.natCast_div, Nat.cast_add, Nat.cast_mul, Nat.cast_one,
    Nat.cast_ofNat, e, ha, hb]
  have hsum : (row % 2 ^ 64 + col % 2 ^ 64) % 2 ^ 64 = (row + col) % 2 ^ 64 :=
    (Int.add_emod row col (2 ^ 64)).symm
  have hsum1 : (row % 2 ^ 64 + col % 2 ^ 64 + 1) % 2 ^ 64 = (row + col + 1) % 2 ^ 64 := by
    omega
  have hprod : ((row % 2 ^ 64 + col % 2 ^ 64) % 2 ^ 64 *
      ((row % 2 ^ 64 + col % 2 ^ 64 + 1) % 2 ^ 64)) % 2 ^ 64 =
      (row + col) * (row + col + 1) := by
    rw [hsum, hsum1, ← Int.mul_emod, Int.emod_eq_of_lt hp0 (by omega)]
  rw [hprod]
  unfold pairingKey
  have hdiv : 0 ≤ (row + col) * (row + col + 1) / 2 := Int.ediv_nonneg hp0 (by norm_num)
  generalize (row + col) * (row + col + 1) / 2 = q at hdiv ⊢
  show (q + col % 2 ^ 64) % 2 ^ 64 = (q + col) % 2 ^ 64
  omega

/-- C14 (amended): for every pair of 32-bit integers `(row, col)`, negative values
included, with `k = (row + col) * (row + col + 1) / 2 + col` evaluated over the integers,
`hash(row, col)` is `(k mod 2^64) mod 997`; `k` is non-negative whenever `col >= 0`
(whatever the sign of `row`); whenever `k` is non-negative, `hash(row, col)` is `k mod 997`;
and whenever `k` is negative, `hash(row, col)` is `(k + 2^64) mod 997`, which is different
from `k mod 997`. -/
theorem hash_signed (row col : Int) (hr : -(2 ^ 31) ≤ row ∧ row ≤ 2 ^ 31 - 1)
    (hc : -(2 ^ 31) ≤ col ∧ col ≤ 2 ^ 31 - 1) :
    ((hash row col).val : Int) = pairingKey row col % 2 ^ 64 % 997 ∧
    (0 ≤ col → 0 ≤ pairingKey row col) ∧
    (0 ≤ pairingKey row col → ((hash row col).val : Int) = pairingKey row col % 997) ∧
    (pairingKey row col < 0 →
      ((hash row col).val : Int) = (pairingKey row col + 2 ^ 64) % 997 ∧
      ((hash row col).val : Int) ≠ pairingKey row col % 997) := by
  obtain ⟨hp0, hp1⟩ := consecutive_product_bounds (s := row + col) (by omega) (by omega)
  have hq0 : 0 ≤ (row + col) * (row + col + 1) / 2 := Int.ediv_nonneg hp0 (by norm_num)
  have hq1 : (row + col) * (row + col + 1) / 2 ≤ (row + col) * (row + col + 1) :=
    Int.ediv_le_self _ hp0
  have hk : pairingKey row col = (row + col) * (row + col + 1) / 2 + col := rfl
  have hh : ((hash row col).val : Int) = pairingKey row col % 2 ^ 64 % 997 := by
    show ((cantor row col % TABLE_SIZE : Nat) : Int) = _
    rw [Int.natCast_mod, cantor_cast row col hr hc]
    rfl
  generalize (row + col) * (row + col + 1) / 2 = q at hq0 hq1 hk
  generalize (row + col) * (row + col + 1) = p at hp0 hp1 hq1
  generalize pairingKey row col = k at hk hh ⊢
  generalize ((hash row col).val : Int) = h at hh ⊢
  refine ⟨hh, ?_, ?_, ?_⟩
  · intro hc0; omega
  · intro hk0
    rw [hh, Int.emod_eq_of_lt hk0 (by omega)]
  · intro hneg
    have e : k % 2 ^ 64 = k + 2 ^ 64 := by
      rw [← Int.add_emod_self, Int.emod_eq_of_lt (by omega) (by omega)]
    rw [e] at hh
    refine ⟨hh, ?_⟩
    rw [hh]
    omega

theorem hash_signed_witness :
    (-(2 ^ 31) ≤ (-3 : Int) ∧ (-3 : Int) ≤ 2 ^ 31 - 1) ∧
    (-(2 ^ 31) ≤ (4 : Int) ∧ (4 : Int) ≤ 2 ^ 31 - 1) ∧
    pairingKey (-3) 4 = 5 ∧
    ((hash (-3) 4).val : Int) = pairingKey (-3) 4 % 997 ∧
    pairingKey 0 (-1) < 0 ∧
    ((hash 0 (-1)).val : Int) = (pairingKey 0 (-1) + 2 ^ 64) % 997 :=
  ⟨by decide, by decide, by decide,
   (hash_signed (-3) 4 (by decide) (by decide)).2.2.1 (by decide),
   by decide,
   ((hash_signed 0 (-1) (by decide) (by decide)).2.2.2 (by decide)).1⟩

/-! ## Placement and the effect of `set` on the chains -/

theorem placed_of_wf {t : Matrix} (h : WF t) : Placed t := by
  intro i n hn
  have hp := h.placed i n hn
  refine ⟨hp, ?_⟩
  intro hnone
  unfold findNode at hnone
  rw [hp] at hnone
  exact findInChain_eq_none.1 hnone ⟨n, hn, rfl, rfl⟩

theorem wf_copyCtor (uninit : Fin TABLE_SIZE → List Node) {m : Matrix} (h : WF m) :
    WF (copyCtor uninit m) := by
  rw [copyCtor_eq]
  exact (insertAll_entries Function.injective_id h).1

theorem wf_copyAssign (dest : Matrix) {m : Matrix} (h : WF m) :
    WF (copyAssign dest m) := by
  rw [copyAssign_eq]
  exact (insertAll_entries Function.injective_id h).1

/-- C12: on every reachable table, and on its transpose, its copy-constructed copy and
the result of copy-assigning it to any destination, every node stored in the chain of
bucket `i` with coordinates `(r, c)` satisfies `hash(r, c) = i`, and the scan of
`findNode(r, c)` finds a node. -/
theorem bucket_placement (m : Matrix) (h : Reachable m) :
    Placed m ∧ Placed (transpose m) ∧ (∀ uninit, Placed (copyCtor uninit m)) ∧
    (∀ dest, Placed (copyAssign dest m)) ∧ Placed (copyAssignSelf m) :=
  ⟨placed_of_wf h.wf, placed_of_wf (wf_transpose h.wf),
   fun uninit => placed_of_wf (wf_copyCtor uninit h.wf),
   fun dest => placed_of_wf (wf_copyAssign dest h.wf), placed_of_wf h.wf⟩

theorem bucket_placement_witness :
    Reachable demo ∧
    (Placed demo ∧ Placed (transpose demo) ∧ (∀ uninit, Placed (copyCtor uninit demo)) ∧
     (∀ dest, Placed (copyAssign dest demo)) ∧ Placed (copyAssignSelf demo)) :=
  ⟨reachable_demo, bucket_placement demo reachable_demo⟩

/-- Shape of the chain around the node that the scan of `findNode` stops at, and the
chains that `set` leaves for a zero and for a non-zero value. -/
theorem chainSet_of_present {row col : Int} {chain : List Node}
    (hp : HasCoord row col chain) :
    ∃ pre n post, chain = pre ++ n :: post ∧ (n.row = row ∧ n.col = col) ∧
      (∀ x ∈ pre, ¬ (x.row = row ∧ x.col = col)) ∧
      chainSet row col 0 chain = pre ++ post ∧
      ∀ value : Rat, value ≠ 0 →
        chainSet row col value chain =
          pre ++ { row := n.row, col := n.col, value := value } :: post := by
  induction chain with
  | nil =>
    obtain ⟨x, hx, _⟩ := hp
    cases hx
  | cons x rest ih =>
    by_cases hx : x.row = row ∧ x.col = col
    · refine ⟨[], x, rest, rfl, hx, ?_, ?_, ?_⟩
      · intro y hy; cases hy
      · rw [chainSet_cons_hit _ _ _ _ _ hx, if_pos rfl]
        rfl
      · intro value hv
        rw [chainSet_cons_hit _ _ _ _ _ hx, if_neg hv]
        rfl
    · have hp2 : HasCoord row col rest := by
        rcases hasCoord_cons.1 hp with h1 | h1
        · exact absurd h1 hx
        · exact h1
      obtain ⟨pre, n, post, hc, hn, hpre, h0, hv⟩ := ih hp2
      refine ⟨x :: pre, n, post, ?_, hn, ?_, ?_, ?_⟩
      · rw [hc]; rfl
      · intro y hy
        rcases List.mem_cons.1 hy with rfl | hy'
        · exact hx
        · exact hpre y hy'
      · rw [chainSet_cons_miss_present _ _ _ _ _ hx hp2, h0]
        rfl
      · intro value hval
        rw [chainSet_cons_miss_present _ _ _ _ _ hx hp2, hv value hval]
        rfl

theorem set_buckets_other (m : Matrix) (row col : Int) (value : Rat) {j : Fin TABLE_SIZE}
    (hj : j ≠ hash row col) : (set m row col value).buckets j = m.buckets j := by
  rw [set_buckets, setBucket_other _ _ hj]

theorem set_buckets_same (m : Matrix) (row col : Int) (value : Rat) :
    (set m row col value).buckets (hash row col) =
      chainSet row col value (m.buckets (hash row col)) := by
  rw [set_buckets, setBucket_same]

theorem set_zero_of_absent (m : Matrix) {row col : Int}
    (h : ¬ HasCoord row col (m.buckets (hash row col))) : set m row col 0 = m := by
  unfold set findNode
  rw [findInChain_eq_none.2 h]
  simp only [if_true]

theorem hasCoord_bucket_iff {m : Matrix} (h : WF m) (row col : Int) :
    HasCoord row col (m.buckets (hash row col)) ↔
      ∃ n ∈ entries m, n.row = row ∧ n.col = col := by
  constructor
  · rintro ⟨n, hn, hc⟩
    exact ⟨n, mem_entries.2 ⟨_, hn⟩, hc⟩
  · rintro ⟨n, hn, hr, hc⟩
    obtain ⟨i, hi⟩ := mem_entries.1 hn
    have hp := h.placed i n hi
    rw [hr, hc] at hp
    rw [hp]
    exact ⟨n, hi, hr, hc⟩

/-- C17: on every reachable table, `set(row, col, 0)` on a cell that has an entry leaves
bucket `hash(row, col)` with its previous chain minus that one node (the other nodes in
their previous order, none of them with these coordinates), leaves every other bucket
unchanged and decrements the count by one; on a cell without entry it leaves the whole
table unchanged. -/
theorem set_zero_effect (m : Matrix) (h : Reachable m) (row col : Int) :
    ((∃ n ∈ entries m, n.row = row ∧ n.col = col) →
      ∃ pre n post, m.buckets (hash row col) = pre ++ n :: post ∧
        (n.row = row ∧ n.col = col) ∧
        (set m row col 0).buckets (hash row col) = pre ++ post ∧
        (∀ x ∈ pre ++ post, ¬ (x.row = row ∧ x.col = col)) ∧
        (∀ j, j ≠ hash row col → (set m row col 0).buckets j = m.buckets j) ∧
        nonZeroCount (set m row col 0) + 1 = nonZeroCount m) ∧
    ((¬ ∃ n ∈ entries m, n.row = row ∧ n.col = col) → set m row col 0 = m) := by
  have hw := h.wf
  refine ⟨?_, ?_⟩
  · intro hex
    have hp : HasCoord row col (m.buckets (hash row col)) :=
      (hasCoord_bucket_iff hw row col).2 hex
    obtain ⟨pre, n, post, hc, hn, _, h0, _⟩ := chainSet_of_present hp
    have hset : (set m row col 0).buckets (hash row col) = pre ++ post := by
      rw [set_buckets_same, h0]
    refine ⟨pre, n, post, hc, hn, hset, ?_, ?_, ?_⟩
    · intro x hx hxc
      have hg : get (set m row col 0) row col = 0 := get_set_same hw row col 0
      have hw2 := wf_set hw row col 0
      rw [← hset] at hx
      exact (get_ne_zero_iff hw2 row col).2 ⟨x, mem_entries.2 ⟨_, hx⟩, hxc⟩ hg
    · intro j hj
      exact set_buckets_other m row col 0 hj
    · have hm := hasCoord_iff_mem.1 hp
      have hcount := set_nonZeroElements m row col 0
      rw [if_pos hm, if_pos rfl] at hcount
      have hpos : 0 < m.nonZeroElements := by
        have h1 := bucket_length_le_storedNodes m (hash row col)
        have h2 := hw.count
        rw [hc, List.length_append, List.length_cons] at h1
        omega
      unfold nonZeroCount
      omega
  · intro hno
    exact set_zero_of_absent m (fun hp => hno ((hasCoord_bucket_iff hw row col).1 hp))

theorem set_zero_effect_witness :
    Reachable demo ∧
    (((∃ n ∈ entries demo, n.row = 1 ∧ n.col = 1) →
      ∃ pre n post, demo.buckets (hash 1 1) = pre ++ n :: post ∧
        (n.row = 1 ∧ n.col = 1) ∧
        (set demo 1 1 0).buckets (hash 1 1) = pre ++ post ∧
        (∀ x ∈ pre ++ post, ¬ (x.row = 1 ∧ x.col = 1)) ∧
        (∀ j, j ≠ hash 1 1 → (set demo 1 1 0).buckets j = demo.buckets j) ∧
        nonZeroCount (set demo 1 1 0) + 1 = nonZeroCount demo) ∧
     ((¬ ∃ n ∈ entries demo, n.row = 1 ∧ n.col = 1) → set demo 1 1 0 = demo)) :=
  ⟨reachable_demo, set_zero_effect demo reachable_demo 1 1⟩

/-- C18: on every table, `set(row, col, value)` with a non-zero value, when the chain of
bucket `hash(row, col)` has a node with these coordinates, replaces the value of the first
such node and changes nothing else in the chain nor the count; otherwise it puts the new
node in front of the chain and increments the count; every other bucket is unchanged. -/
theorem set_nonzero_effect (m : Matrix) (row col : Int) (value : Rat) (hv : value ≠ 0) :
    (HasCoord row col (m.buckets (hash row col)) →
      ∃ pre n post, m.buckets (hash row col) = pre ++ n :: post ∧
        (n.row = row ∧ n.col = col) ∧
        (∀ x ∈ pre, ¬ (x.row = row ∧ x.col = col)) ∧
        (set m row col value).buckets (hash row col) =
          pre ++ { row := n.row, col := n.col, value := value } :: post ∧
        nonZeroCount (set m row col value) = nonZeroCount m) ∧
    (¬ HasCoord row col (m.buckets (hash row col)) →
      (set m row col value).buckets (hash row col) =
        { row := row, col := col, value := value } :: m.buckets (hash row col) ∧
      nonZeroCount (set m row col value) = nonZeroCount m + 1) ∧
    (∀ j, j ≠ hash row col → (set m row col value).buckets j = m.buckets j) := by
  refine ⟨?_, ?_, fun j hj => set_buckets_other m row col value hj⟩
  · intro hp
    obtain ⟨pre, n, post, hc, hn, hpre, _, hval⟩ := chainSet_of_present hp
    refine ⟨pre, n, post, hc, hn, hpre, ?_, ?_⟩
    · rw [set_buckets_same, hval value hv]
    · unfold nonZeroCount
      rw [set_nonZeroElements, if_pos (hasCoord_iff_mem.1 hp), if_neg hv]
  · intro hp
    refine ⟨?_, ?_⟩
    · rw [set_buckets_same, chainSet_absent _ _ _ _ hp, if_neg hv]
    · unfold nonZeroCount
      rw [set_nonZeroElements, if_neg (fun hm => hp (hasCoord_iff_mem.2 hm)), if_neg hv]

theorem set_nonzero_effect_witness :
    (7 : Rat) ≠ 0 ∧
    (∀ j, j ≠ hash 1 1 → (set demo 1 1 7).buckets j = demo.buckets j) :=
  ⟨by decide, (set_nonzero_effect demo 1 1 7 (by decide)).2.2⟩

/-- C19: on every table, `set(row, col, value)` for any value leaves `get` unchanged at
every other coordinate pair, whether or not the two pairs share a bucket. -/
theorem set_frame (m : Matrix) (row col row2 col2 : Int) (value : Rat)
    (hne : (row, col) ≠ (row2, col2)) :
    get (set m row col value) row2 col2 = get m row2 col2 :=
  get_set_other m value (fun hc => hne (Prod.ext hc.1 hc.2))

theorem set_frame_witness :
    ((37 : Int), (7 : Int)) ≠ (0, 0) ∧ hash 37 7 = hash 0 0 ∧
    get (set demo 37 7 0) 0 0 = get demo 0 0 ∧
    get (set (set demo 37 7 9) 0 0 0) 37 7 = get (set demo 37 7 9) 37 7 :=
  ⟨by decide, by decide, set_frame demo 37 7 0 0 0 (by decide),
   set_frame (set demo 37 7 9) 0 0 37 7 0 (by decide)⟩

/-! ## Chain order after a copy -/

theorem insertAll_id_cons (t : Matrix) (x : Node) (rest : List Node) :
    insertAll id t (x :: rest) = insertAll id (set t x.row x.col x.value) rest := rfl

theorem node_eta (x : Node) : ({ row := x.row, col := x.col, value := x.value } : Node) = x := by
  cases x
  rfl

theorem set_buckets_of_fresh {t : Matrix} (h : WF t) {x : Node}
    (hg : get t x.row x.col = 0) (hv : x.value ≠ 0) :
    (set t x.row x.col x.value).buckets =
      setBucket t.buckets (hash x.row x.col) (x :: t.buckets (hash x.row x.col)) := by
  have hnot : ¬ HasCoord x.row x.col (t.buckets (hash x.row x.col)) := by
    rintro ⟨n, hn, hc⟩
    exact (get_ne_zero_iff h x.row x.col).2 ⟨n, mem_entries.2 ⟨_, hn⟩, hc⟩ hg
  rw [set_buckets, chainSet_absent _ _ _ _ hnot, if_neg hv, node_eta]

/-- Inserting fresh nodes one after the other puts them, in reverse order, in front of
the chains of their buckets. -/
theorem insertAll_id_buckets {t : Matrix} (h : WF t) {l : List Node}
    (hnd : (l.map coords).Nodup) (hv : ∀ n ∈ l, n.value ≠ 0)
    (hfresh : ∀ n ∈ l, get t n.row n.col = 0) (i : Fin TABLE_SIZE) :
    (insertAll id t l).buckets i =
      (l.filter (fun n => decide (hash n.row n.col = i))).reverse ++ t.buckets i := by
  induction l generalizing t with
  | nil => rfl
  | cons x rest ih =>
    rw [List.map_cons, List.nodup_cons] at hnd
    have hx := hfresh x (List.mem_cons_self _ _)
    have hxv := hv x (List.mem_cons_self _ _)
    have hfresh2 : ∀ n ∈ rest,
        get (set t x.row x.col x.value) n.row n.col = 0 := by
      intro n hn
      rw [get_set_other]
      · exact hfresh n (List.mem_cons_of_mem _ hn)
      · intro hc
        apply hnd.1
        have : coords x = coords n := Prod.ext hc.1 hc.2
        rw [this]
        exact List.mem_map_of_mem _ hn
    rw [insertAll_id_cons, ih (wf_set h _ _ _) hnd.2
      (fun n hn => hv n (List.mem_cons_of_mem _ hn)) hfresh2, set_buckets_of_fresh h hx hxv]
    by_cases hi : hash x.row x.col = i
    · rw [List.filter_cons_of_pos (by simpa using hi), List.reverse_cons, List.append_assoc,
        ← hi, setBucket_same]
      rfl
    · rw [List.filter_cons_of_neg (by simpa using hi),
        setBucket_other _ _ (fun h' => hi h'.symm)]

theorem filter_flatMap_bucket {b : Fin TABLE_SIZE → List Node}
    (hp : ∀ i, ∀ n ∈ b i, hash n.row n.col = i) (l : List (Fin TABLE_SIZE)) (hnd : l.Nodup)
    (i : Fin TABLE_SIZE) :
    (l.flatMap b).filter (fun n => decide (hash n.row n.col = i)) =
      if i ∈ l then b i else [] := by
  induction l with
  | nil => rfl
  | cons j rest ih =>
    rw [List.nodup_cons] at hnd
    rw [List.flatMap_cons, List.filter_append, ih hnd.2]
    by_cases hji : j = i
    · subst hji
      have hself : (b j).filter (fun n => decide (hash n.row n.col = j)) = b j := by
        rw [List.filter_eq_self]
        intro n hn
        exact decide_eq_true (hp j n hn)
      rw [hself, if_neg hnd.1, if_pos (List.mem_cons_self _ _), List.append_nil]
    · have hnone : (b j).filter (fun n => decide (hash n.row n.col = i)) = [] := by
        rw [List.filter_eq_nil_iff]
        intro n hn hdec
        exact hji ((hp j n hn).symm.trans (of_decide_eq_true hdec))
      rw [hnone, List.nil_append]
      by_cases hi : i ∈ rest
      · rw [if_pos hi, if_pos (List.mem_cons_of_mem _ hi)]
      · rw [if_neg hi, if_neg]
        intro hm
        rcases List.mem_cons.1 hm with h1 | h1
        · exact hji h1.symm
        · exact hi h1

theorem copyCtor_buckets (uninit : Fin TABLE_SIZE → List Node) {m : Matrix} (h : WF m)
    (i : Fin TABLE_SIZE) : (copyCtor uninit m).buckets i = (m.buckets i).reverse := by
  have hfilter : (entries m).filter (fun n => decide (hash n.row n.col = i)) = m.buckets i := by
    unfold entries
    rw [filter_flatMap_bucket h.placed _ nodup_bucketIndices i, if_pos (mem_bucketIndices i)]
  rw [copyCtor_eq, insertAll_id_buckets wf_empty (nodup_coords_entries h)
    (fun n hn => ((mem_entries_iff_get h n).1 hn).2) (fun n _ => get_empty _ _) i, hfilter]
  exact List.append_nil _

/-- C20: for every reachable table and every bucket index, the chain of the bucket in the
copy-constructed table is the chain of the source in reversed order; hence the copy
iterates the chains of buckets `0, 1, ..., 996` each from tail to head, and the copy of
the copy has the chains (and the count) of the source. -/
theorem copy_reverses_chains (m : Matrix) (h : Reachable m) :
    (∀ uninit i, (copyCtor uninit m).buckets i = (m.buckets i).reverse) ∧
    (∀ uninit, bucketOrder (copyCtor uninit m) =
      (List.finRange TABLE_SIZE).flatMap (fun i => ((m.buckets i).reverse).map Node.toTriple)) ∧
    (∀ uninit uninit2, copyCtor uninit2 (copyCtor uninit m) = m) := by
  have hw := h.wf
  refine ⟨fun uninit i => copyCtor_buckets uninit hw i, ?_, ?_⟩
  · intro uninit
    unfold bucketOrder
    have hfun : (fun i => ((copyCtor uninit m).buckets i).map Node.toTriple) =
        (fun i => ((m.buckets i).reverse).map Node.toTriple) := by
      funext i
      rw [copyCtor_buckets uninit hw i]
    rw [hfun]
  · intro uninit uninit2
    have hw2 := wf_copyCtor uninit hw
    have hb : (copyCtor uninit2 (copyCtor uninit m)).buckets = m.buckets := by
      funext i
      rw [copyCtor_buckets uninit2 hw2 i, copyCtor_buckets uninit hw i, List.reverse_reverse]
    have hc : (copyCtor uninit2 (copyCtor uninit m)).nonZeroElements = m.nonZeroElements := by
      have h1 : nonZeroCount (copyCtor uninit2 (copyCtor uninit m)) =
          nonZeroCount (copyCtor uninit m) := by
        rw [copyCtor_eq uninit2]
        exact (copy_contents hw2).2
      have h2 : nonZeroCount (copyCtor uninit m) = nonZeroCount m := by
        rw [copyCtor_eq uninit]
        exact (copy_contents hw).2
      exact h1.trans h2
    cases hcc : copyCtor uninit2 (copyCtor uninit m) with
    | mk b c =>
      rw [hcc] at hb hc
      cases m with
      | mk b2 c2 =>
        simp only at hb hc
        rw [hb, hc]

theorem copy_reverses_chains_witness :
    Reachable (set demo 37 7 9) ∧
    (∀ uninit i, (copyCtor uninit (set demo 37 7 9)).buckets i =
      ((set demo 37 7 9).buckets i).reverse) ∧
    (set demo 37 7 9).buckets (hash 0 0) =
      [{ row := 37, col := 7, value := 9 }, { row := 0, col := 0, value := 1 }] :=
  ⟨.set reachable_demo 37 7 9,
   (copy_reverses_chains (set demo 37 7 9) (.set reachable_demo 37 7 9)).1, by decide⟩

end SparseMatrix
